import Mathlib

/-!
Verification development for the single-pass floor planner
(`src/halo2_proofs/src/circuit/floor_planner/single_pass.rs`) and the
key-generation assembly (`src/halo2_proofs/src/plonk/keygen.rs`).

The Rust code is shallowly embedded: machine maps (`HashMap`) become
association lists, `Result` becomes `Except`, and the in-place mutation of
the layouter / assembly state becomes explicit state passing.
-/

namespace Halo2

/-- Column kinds (`Any` collapses onto the concrete kinds for map keys). -/

inductive ColKind : Type
  | advice
  | fixed
  | inst
  deriving DecidableEq, Repr

/-- A column identity: kind plus index (`Column<...>` in the source). -/

structure Column : Type where
  kind : ColKind
  index : Nat
  deriving DecidableEq, Repr

/-- `RegionColumn`: key type of the layouter's occupancy map; a concrete
column or a selector (selectors are identified by their index). -/

inductive RegionColumn : Type
  | column (c : Column)
  | sel (s : Nat)
  deriving DecidableEq, Repr

/-- A cell produced by a region assignment: region index, row offset within
the region, and the column written. -/

structure Cell : Type where
  region_index : Nat
  row_offset : Nat
  column : Column
  deriving DecidableEq, Repr

/-- One endpoint of a buffered equality constraint (`CopyCell`). -/

structure CopyCell : Type where
  column : Column
  row : Nat
  deriving DecidableEq, Repr

/-- The error kinds this engine surfaces (`plonk::Error`, restricted to the
variants the embedded code can produce). -/

inductive Err : Type
  | NotEnoughColumnsForConstants
  | BoundsFailure
  | NotEnoughRowsAvailable (k : Nat)
  | Synthesis
  deriving DecidableEq, Repr

/-- A half-open row range (`std::ops::Range<usize>`). -/

structure RowRange : Type where
  start : Nat
  stop : Nat
  deriving DecidableEq, Repr

/-- `Range::contains`. -/

def RowRange.containsB (r : RowRange) (x : Nat) : Bool :=
  decide (r.start ≤ x) && decide (x < r.stop)

/-- The column-occupancy map `columns: HashMap<RegionColumn, usize>`,
embedded as an association list. -/

abbrev ColMap : Type := List (RegionColumn × Nat)

/-- Map lookup with the `unwrap_or(0)` / `or_default()` behaviour of the
source: an absent key reads as 0. -/

def lookupD : ColMap → RegionColumn → Nat
  | [], _ => 0
  | (k, v) :: rest, c => if k = c then v else lookupD rest c

/-- Map insert / overwrite. -/

def insertCol : ColMap → RegionColumn → Nat → ColMap
  | [], c, v => [(c, v)]
  | (k, w) :: rest, c, v =>
      if k = c then (c, v) :: rest else (k, w) :: insertCol rest c v

/-- The shape of a probed region: the set of columns it touches and its row
count (`RegionShape`; the probe itself lives outside `src/`, see
`probeShape` below). -/

structure RegionShape : Type where
  columns : List RegionColumn
  row_count : Nat
  deriving DecidableEq, Repr

/-- The starting-row computation of `assign_region` (single_pass.rs lines
135-147): the fold of `max` over the occupancy frontiers of the touched
columns, starting from 0. -/

def regionStart (m : ColMap) (cols : List RegionColumn) : Nat :=
  cols.foldl (fun acc c => max acc (lookupD m c)) 0

/-- The occupancy update of `assign_region` (lines 158-161): every touched
column's frontier is set to `v` (with `v = region_start + row_count`). -/

def advanceColumns (m : ColMap) (cols : List RegionColumn) (v : Nat) : ColMap :=
  cols.foldl (fun acc c => insertCol acc c v) m

/-- One placement step of the floor planner: choose the starting row, then
advance every touched column's frontier to `start + row_count`. -/

def layoutRegion (m : ColMap) (s : RegionShape) : Nat × ColMap :=
  let start := regionStart m s.columns
  (start, advanceColumns m s.columns (start + s.row_count))

/-!
## The synthesis pass as a sequence of occupancy-map events

`assign_region` performs, on the occupancy map, one region placement
(lines 135-161) followed by one constants consolidation (lines 182-203,
which advances the map entry of the first constants column by the number of
requests).  `assign_regions` performs the region placements of its batch
sequentially (lines 231-250, the same code as lines 135-161) followed by a
single consolidation of all collected requests (lines 311-338).  Both are
therefore interleavings of the two events below.
-/

/-- An occupancy-map event of one synthesis pass. -/

inductive PassEvent : Type
  | region (s : RegionShape)
  | consts (k : Nat)
  deriving DecidableEq, Repr

/-- Occupancy map together with the row intervals handed out so far:
placements `(start, shape)` in region order and constants intervals
`(first row, count)` on the constants column. -/

structure PassState : Type where
  columns : ColMap
  placements : List (Nat × RegionShape)
  constRows : List (Nat × Nat)
  deriving DecidableEq, Repr

/-- Effect of one event on the occupancy map, for constants column `cc`. -/

def stepEvent (cc : RegionColumn) (st : PassState) : PassEvent → PassState
  | .region s =>
      let start := regionStart st.columns s.columns
      { columns := advanceColumns st.columns s.columns (start + s.row_count)
        placements := st.placements ++ [(start, s)]
        constRows := st.constRows }
  | .consts k =>
      let row := lookupD st.columns cc
      { columns := insertCol st.columns cc (row + k)
        placements := st.placements
        constRows := st.constRows ++ [(row, k)] }

/-- A whole pass from the fresh layouter state (`SingleChipLayouter::new`). -/

def runPass (cc : RegionColumn) (evs : List PassEvent) : PassState :=
  evs.foldl (stepEvent cc) ⟨[], [], []⟩

/-- The frontier of every column dominates every row interval handed out on
that column so far, and all handed-out intervals are mutually disjoint on
shared columns. -/

def passInv (cc : RegionColumn) (st : PassState) : Prop :=
  (∀ p ∈ st.placements, ∀ c ∈ (p : Nat × RegionShape).2.columns,
      p.1 + p.2.row_count ≤ lookupD st.columns c) ∧
  (∀ iv ∈ st.constRows, (iv : Nat × Nat).1 + iv.2 ≤ lookupD st.columns cc) ∧
  st.placements.Pairwise (fun p q => ∀ c, c ∈ p.2.columns → c ∈ q.2.columns →
      p.1 + p.2.row_count ≤ q.1) ∧
  (∀ iv ∈ st.constRows, ∀ p ∈ st.placements, cc ∈ (p : Nat × RegionShape).2.columns →
      (iv : Nat × Nat).1 + iv.2 ≤ p.1 ∨ p.1 + p.2.row_count ≤ iv.1)

/-!
## The key-generation assembly (`plonk/keygen.rs`)

The `Assembly` struct and the `Assignment` methods the floor planner
exercises.  The shared `Arc` backing store with raw-pointer windows is
embedded by giving each context its own window of the grid (the source's
disjoint-window argument is exactly what makes this faithful); grid cells
hold plain values (`Assigned<F>` is opaque here).  The permutation builder
is an external collaborator; modelled from the spec: it consumes an ordered
list of equality constraints, so it is embedded as that list.
-/

/-- Modify the `i`-th entry of a list in place (embedding of an in-place
slice update). -/

def modifyAt {α : Type} : List α → Nat → (α → α) → List α
  | [], _, _ => []
  | x :: xs, 0, f => f x :: xs
  | x :: xs, n + 1, f => x :: modifyAt xs n f

/-- `Assembly` (keygen.rs lines 57-71).  `fixed` and `selectors` are this
context's windows; rows are addressed relative to `rw_rows.start` exactly
as in the source.  `permutation = none` marks a forked sub-context, whose
equality constraints are buffered in `copies`. -/

structure Assembly (F : Type) : Type where
  k : Nat
  fixed : List (List F)
  permutation : Option (List (CopyCell × CopyCell))
  selectors : List (List Bool)
  rw_rows : RowRange
  copies : List (CopyCell × CopyCell)
  usable_rows : RowRange
  deriving DecidableEq, Repr

/-- `Assembly::enable_selector` (lines 86-103).  The source indexes the
selector bitmap directly (a panic on an out-of-range selector index);
`modifyAt` leaves the state unchanged in that unreachable case. -/

def Assembly.enable_selector {F : Type} (a : Assembly F) (s : Nat)
    (row : Nat) : Except Err (Assembly F) :=
  if ¬ a.usable_rows.containsB row then .error (.NotEnoughRowsAvailable a.k)
  else if ¬ a.rw_rows.containsB row then .error .Synthesis
  else
    let sel := modifyAt a.selectors s (fun col => col.set (row - a.rw_rows.start) true)
    .ok { a with selectors := sel }

/-- `Assembly::assign_fixed` (lines 241-270).  A `none` value models an
unknown `Value`, which `.assign()` rejects with a synthesis error. -/

def Assembly.assign_fixed {F : Type} (a : Assembly F) (col : Nat)
    (row : Nat) (tv : Option F) : Except Err (Assembly F) :=
  if ¬ a.usable_rows.containsB row then .error (.NotEnoughRowsAvailable a.k)
  else if ¬ a.rw_rows.containsB row then .error .Synthesis
  else
    match (a.fixed.get? col).bind (fun v => v.get? (row - a.rw_rows.start)) with
    | none => .error .BoundsFailure
    | some _ =>
        match tv with
        | none => .error .Synthesis
        | some v =>
            let fx := modifyAt a.fixed col (fun cv => cv.set (row - a.rw_rows.start) v)
            .ok { a with fixed := fx }

/-- `Assembly::copy` (lines 272-299): apply the constraint to the
permutation builder when one is attached, otherwise buffer it. -/

def Assembly.copy {F : Type} (a : Assembly F) (lc : Column) (lr : Nat)
    (rc : Column) (rr : Nat) : Except Err (Assembly F) :=
  if ¬ (a.usable_rows.containsB lr && a.usable_rows.containsB rr) then
    .error (.NotEnoughRowsAvailable a.k)
  else
    match a.permutation with
    | none => .ok { a with copies := a.copies ++ [(⟨lc, lr⟩, ⟨rc, rr⟩)] }
    | some ps => .ok { a with permutation := some (ps ++ [(⟨lc, lr⟩, ⟨rc, rr⟩)]) }

/-- `Assembly::fill_from_row` (lines 301-322): write `to` to every usable
row from the `from_row`-th one on (the source skips `from_row` elements of
the usable range and indexes the window with the absolute row). -/

def Assembly.fill_from_row {F : Type} (a : Assembly F) (col : Nat)
    (from_row : Nat) (tv : Option F) : Except Err (Assembly F) :=
  if ¬ a.usable_rows.containsB from_row then .error (.NotEnoughRowsAvailable a.k)
  else
    match a.fixed.get? col with
    | none => .error .BoundsFailure
    | some _ =>
        match tv with
        | none => .error .Synthesis
        | some v =>
            let fill := fun (cv : List F) =>
              ((List.range' a.usable_rows.start
                  (a.usable_rows.stop - a.usable_rows.start)).drop from_row).foldl
                (fun c r => c.set r v) cv
            .ok { a with fixed := modifyAt a.fixed col fill }

/-- The range-validation loop of `Assembly::fork` (lines 106-134): each
range must start at or after the running cursor (initially the parent's
window start), and only the last range's end is checked against the
parent's window end. -/

def forkCheck (rangeStart : Nat) (rwStop : Nat) :
    List RowRange → Except Err Unit
  | [] => .ok ()
  | r :: rest =>
      if r.start < rangeStart then .error .Synthesis
      else if rest.isEmpty && decide (rwStop < r.stop) then .error .Synthesis
      else forkCheck r.stop rwStop rest

/-- The window carved for one sub-range (lines 148-179): offsets are taken
relative to the parent's window, `k` is zeroed, no permutation builder is
attached and the copy buffer starts empty. -/

def subAssembly {F : Type} (a : Assembly F) (r : RowRange) : Assembly F :=
  { k := 0
    fixed := a.fixed.map (fun col => (col.drop r.start).take (r.stop - r.start))
    permutation := none
    selectors := a.selectors.map (fun col => (col.drop r.start).take (r.stop - r.start))
    rw_rows := r
    copies := []
    usable_rows := a.usable_rows }

/-- `Assembly::fork` (lines 105-183): validate all ranges, then carve one
sub-context per range. -/

def Assembly.fork {F : Type} (a : Assembly F) (ranges : List RowRange) :
    Except Err (List (Assembly F)) :=
  match forkCheck a.rw_rows.start a.rw_rows.stop ranges with
  | .error e => .error e
  | .ok _ => .ok (ranges.map (subAssembly a))

/-- `Assembly::merge` (lines 185-193): replay every sub-context's buffered
constraints, in sub-context order, into the parent's permutation builder.
The source panics (`expect`) when no builder is attached; that unreachable
case is embedded as an error. -/

def Assembly.merge {F : Type} (a : Assembly F) (subs : List (Assembly F)) :
    Except Err (Assembly F) :=
  match a.permutation with
  | none => .error .Synthesis
  | some ps =>
      let merged := ps ++ subs.flatMap (fun s => s.copies)
      .ok { a with permutation := some merged }

/-!
## Region assignment routines

A region's assignment routine is embedded as first-order data: the list of
capability calls it makes.  The same list drives the shape-measuring pass
and the materializing pass, which is the source's two-phase contract (the
one closure is invoked once against `RegionShape` and once against
`SingleChipLayouterRegion`).
-/

/-- One call a region routine makes on its `Region` handle. -/

inductive RegionOp (F : Type) : Type
  | enableSel (s : Nat) (offset : Nat)
  | assignAdvice (col : Nat) (offset : Nat) (v : Option F)
  | assignFixed (col : Nat) (offset : Nat) (v : Option F)
  | assignConst (col : Nat) (offset : Nat) (c : F)
  | constrainEq (l r : Cell)
  deriving DecidableEq, Repr

/-- Modelled from the spec: `RegionShape` (the shape probe, which lives
outside `src/`) accepts every call, records the column referenced by each
write/selector call, and keeps the maximum row offset seen plus one as the
row count; an equality between already-created cells references no new
column. -/

def probeShape {F : Type} (ops : List (RegionOp F)) : RegionShape :=
  ops.foldl
    (fun sh op =>
      match op with
      | .enableSel s off =>
          ⟨sh.columns ++ [RegionColumn.sel s], max sh.row_count (off + 1)⟩
      | .assignAdvice col off _ =>
          ⟨sh.columns ++ [RegionColumn.column ⟨.advice, col⟩],
            max sh.row_count (off + 1)⟩
      | .assignFixed col off _ =>
          ⟨sh.columns ++ [RegionColumn.column ⟨.fixed, col⟩],
            max sh.row_count (off + 1)⟩
      | .assignConst col off _ =>
          ⟨sh.columns ++ [RegionColumn.column ⟨.advice, col⟩],
            max sh.row_count (off + 1)⟩
      | .constrainEq _ _ => sh)
    ⟨[], 0⟩

/-- `self.regions[*index]` (a `RegionStart` read). -/

def regionRow (regions : List Nat) (idx : Nat) : Nat := regions.getD idx 0

/-- One materializing call of `SingleChipLayouterRegion` (lines 460-593):
row offsets are translated by the region's starting row and delegated to
the capability; `assign_advice_from_constant` records `(constant, cell)`
for later consolidation. -/

def stepOp {F : Type} (regions : List Nat) (idx : Nat) (a : Assembly F) :
    RegionOp F → Except Err (Assembly F × List (F × Cell))
  | .enableSel s off => do
      let a ← a.enable_selector s (regionRow regions idx + off)
      .ok (a, [])
  | .assignAdvice _ _ _ => .ok (a, [])
  | .assignFixed col off v => do
      let a ← a.assign_fixed col (regionRow regions idx + off) v
      .ok (a, [])
  | .assignConst col off c =>
      .ok (a, [(c, ⟨idx, off, ⟨.advice, col⟩⟩)])
  | .constrainEq l r => do
      let a ← a.copy l.column (regionRow regions l.region_index + l.row_offset)
        r.column (regionRow regions r.region_index + r.row_offset)
      .ok (a, [])

/-- Run a routine's calls in order, accumulating the constants to assign.
On the first failing call the partially mutated state is kept and the error
is reported alongside it (the `&mut` capability retains earlier writes). -/

def runOpsGo {F : Type} (regions : List Nat) (idx : Nat) :
    Assembly F → List (F × Cell) → List (RegionOp F) →
      (Assembly F × List (F × Cell)) × Except Err Unit
  | a, consts, [] => ((a, consts), .ok ())
  | a, consts, op :: rest =>
      match stepOp regions idx a op with
      | .error e => ((a, consts), .error e)
      | .ok (a', newConsts) => runOpsGo regions idx a' (consts ++ newConsts) rest

/-- The equality constraints a routine emits, as pure data (used to state
what a successful run appends to the builder / buffer). -/

def emitCopies {F : Type} (regions : List Nat) (idx : Nat) :
    List (RegionOp F) → List (CopyCell × CopyCell)
  | [] => []
  | .constrainEq l r :: rest =>
      (⟨l.column, regionRow regions l.region_index + l.row_offset⟩,
        (⟨r.column, regionRow regions r.region_index + r.row_offset⟩ : CopyCell)) ::
        emitCopies regions idx rest
  | _ :: rest => emitCopies regions idx rest

/-- The constants a routine requests, as pure data. -/

def emitConsts {F : Type} (idx : Nat) : List (RegionOp F) → List (F × Cell)
  | [] => []
  | .assignConst col off c :: rest =>
      (c, (⟨idx, off, ⟨.advice, col⟩⟩ : Cell)) :: emitConsts idx rest
  | _ :: rest => emitConsts idx rest

/-!
## The single-chip layouter (`single_pass.rs`)
-/

/-- The layouter state of `SingleChipLayouter` (lines 50-61): the
configured constants columns (fixed), the starting row of every region so
far, the occupancy map, and the sealed table columns (fixed column
indices). -/

structure SCLayouter : Type where
  constants : List Column
  regions : List Nat
  columns : ColMap
  tableColumns : List Nat
  deriving DecidableEq, Repr

/-- The per-request loop of constants consolidation (lines 188-202):
assign the constant into the constants column at the cursor, register the
equality constraint to the requesting cell, advance the cursor. -/

def goConsts {F : Type} (regions : List Nat) (cc : Column) :
    Assembly F → Nat → List (F × Cell) → Except Err (Assembly F × Nat)
  | a, row, [] => .ok (a, row)
  | a, row, (c, cell) :: rest => do
      let a ← a.assign_fixed cc.index row (some c)
      let a ← a.copy cc row cell.column
        (regionRow regions cell.region_index + cell.row_offset)
      goConsts regions cc a (row + 1) rest

/-- Constants consolidation (lines 178-203 and 313-338): no configured
constants column plus a non-empty request list is a hard error; otherwise
requests are written in order into the first constants column, with the
cursor being that column's occupancy-map entry. -/

def assignConstantsStep {F : Type} (l : SCLayouter) (a : Assembly F)
    (consts : List (F × Cell)) : Except Err (SCLayouter × Assembly F) :=
  match l.constants with
  | [] =>
      if consts.isEmpty then .ok (l, a)
      else .error .NotEnoughColumnsForConstants
  | cc :: _ =>
      let row0 := lookupD l.columns (.column cc)
      match goConsts l.regions cc a row0 consts with
      | .error e => .error e
      | .ok (a', rowN) =>
          .ok ({ l with columns := insertCol l.columns (.column cc) rowN }, a')

/-- Record one region placement in the layouter state: push its starting
row and advance the frontiers of its columns (lines 156-161). -/

def placeOne (l : SCLayouter) (shape : RegionShape) : SCLayouter :=
  { l with
    regions := l.regions ++ [regionStart l.columns shape.columns]
    columns := advanceColumns l.columns shape.columns
      (regionStart l.columns shape.columns + shape.row_count) }

/-- The row range a region of this shape will occupy (line 244). -/

def nextRange (l : SCLayouter) (shape : RegionShape) : RowRange :=
  ⟨regionStart l.columns shape.columns,
    regionStart l.columns shape.columns + shape.row_count⟩

/-- `SingleChipLayouter::assign_region` (lines 105-207): probe the shape,
place the region greedily, materialize it, then consolidate its constants.
The partially mutated capability is returned alongside any error. -/

def assignRegion {F : Type} (l : SCLayouter) (a : Assembly F)
    (ops : List (RegionOp F)) : SCLayouter × Assembly F × Except Err Unit :=
  let region_index := l.regions.length
  let l1 := placeOne l (probeShape ops)
  match runOpsGo l1.regions region_index a [] ops with
  | ((a', _), .error e) => (l1, a', .error e)
  | ((a', consts), .ok _) =>
      match assignConstantsStep l1 a' consts with
      | .error e => (l1, a', .error e)
      | .ok (l2, a2) => (l2, a2, .ok ())

/-- The sequential driver: one `assign_region` call per routine, stopping
at the first error. -/

def runRegionsSeq {F : Type} :
    SCLayouter → Assembly F → List (List (RegionOp F)) →
      SCLayouter × Assembly F × Except Err Unit
  | l, a, [] => (l, a, .ok ())
  | l, a, ops :: rest =>
      match assignRegion l a ops with
      | (l', a', .ok _) => runRegionsSeq l' a' rest
      | (l', a', .error e) => (l', a', .error e)

/-- The sequential placement loop of `assign_regions` (lines 224-251):
probe and place each routine of the batch, recording its row range. -/

def placeBatch {F : Type} :
    SCLayouter → List (List (RegionOp F)) → SCLayouter × List RowRange
  | l, [] => (l, [])
  | l, ops :: rest =>
      let p := placeBatch (placeOne l (probeShape ops)) rest
      (p.1, nextRange l (probeShape ops) :: p.2)

/-- The parallel second pass of `assign_regions` (lines 264-285): run the
i-th routine in the i-th sub-context, collecting `(result, constants)` for
every region — no routine's failure prevents the others from running. -/

def runSubs {F : Type} (regions : List Nat) :
    Nat → List (List (RegionOp F) × Assembly F) →
      List ((Assembly F × List (F × Cell)) × Except Err Unit)
  | _, [] => []
  | base, (ops, sub) :: rest =>
      runOpsGo regions base sub [] ops :: runSubs regions (base + 1) rest

/-- `Result::collect::<Result<Vec<_>, _>>` over the per-region outcomes:
the first error in region order, if any. -/

def collectResults : List (Except Err Unit) → Except Err Unit
  | [] => .ok ()
  | .error e :: _ => .error e
  | .ok _ :: rest => collectResults rest

/-- `SingleChipLayouter::assign_regions` (lines 209-341): place the batch
sequentially, fork the capability into per-range sub-contexts, run every
routine to completion in its sub-context (collecting one outcome and one
constants list per region, with no early abort), merge the sub-contexts
back, then check the outcomes, and finally consolidate all the collected
constants.  Note the source merges (line 288) before it checks the
outcomes for errors (line 303). -/

def assignRegionsM {F : Type} (l : SCLayouter) (a : Assembly F)
    (asms : List (List (RegionOp F))) :
    SCLayouter × Assembly F × Except Err Unit :=
  let region_index := l.regions.length
  let placed := placeBatch l asms
  let l1 := placed.1
  match a.fork placed.2 with
  | .error e => (l1, a, .error e)
  | .ok subs =>
      let ret := runSubs l1.regions region_index (asms.zip subs)
      match a.merge (ret.map (fun r => r.1.1)) with
      | .error e => (l1, a, .error e)
      | .ok a1 =>
          match collectResults (ret.map (fun r => r.2)) with
          | .error e => (l1, a1, .error e)
          | .ok _ =>
              let constsAll := ret.flatMap (fun r => r.1.2)
              match assignConstantsStep l1 a1 constsAll with
              | .error e => (l1, a1, .error e)
              | .ok (l2, a2) => (l2, a2, .ok ())

/-!
## The table layouter (`SimpleTableLayouter`, single_pass.rs lines 595-673)
-/

/-- One call of a table assignment routine: `assign_cell` on a table
column (identified by its fixed-column index), with the value producer's
output. -/

structure TableOp (F : Type) : Type where
  col : Nat
  offset : Nat
  v : Option F
  deriving DecidableEq, Repr

/-- `default_and_assigned`: per table column, the default value captured
from row 0 (a `DefaultTableValue`, i.e. an optional `Value`) and the
per-row assigned flags. -/

abbrev DnaMap (F : Type) : Type := List (Nat × (Option (Option F) × List Bool))

def dnaLookup {F : Type} : DnaMap F → Nat → Option (Option (Option F) × List Bool)
  | [], _ => none
  | (k, e) :: rest, c => if k = c then some e else dnaLookup rest c

def dnaInsert {F : Type} : DnaMap F → Nat → (Option (Option F) × List Bool) → DnaMap F
  | [], c, e => [(c, e)]
  | (k, w) :: rest, c, e =>
      if k = c then (c, e) :: rest else (k, w) :: dnaInsert rest c e

/-- `entry.1.resize(offset + 1, false); entry.1[offset] = true`. -/

def markAssigned (flags : List Bool) (off : Nat) : List Bool :=
  let flags := if flags.length ≤ off
    then flags ++ List.replicate (off + 1 - flags.length) false
    else flags
  flags.set off true

/-- `SimpleTableLayouter::assign_cell` (lines 633-672): reject columns
sealed by an earlier pass; write through the capability (tables address
absolute rows starting at 0); the first row-0 write establishes the
column's default value and a second row-0 write for the same column is an
error; finally mark the row assigned. -/

def tableAssignCell {F : Type} (used : List Nat) (a : Assembly F)
    (dna : DnaMap F) (op : TableOp F) :
    Except Err (Assembly F × DnaMap F) :=
  if op.col ∈ used then .error .Synthesis
  else
    let entry := (dnaLookup dna op.col).getD (none, [])
    match a.assign_fixed op.col op.offset op.v with
    | .error e => .error e
    | .ok a' =>
        match entry.1, op.offset with
        | none, 0 =>
            .ok (a', dnaInsert dna op.col (some op.v, markAssigned entry.2 0))
        | some _, 0 => .error .Synthesis
        | d, _ =>
            .ok (a', dnaInsert dna op.col (d, markAssigned entry.2 op.offset))

/-- Run a table routine's calls in order (the routine aborts on the first
error, which `assign_table` propagates). -/

def runTableOps {F : Type} (used : List Nat) :
    Assembly F → DnaMap F → List (TableOp F) →
      Except Err (Assembly F × DnaMap F)
  | a, dna, [] => .ok (a, dna)
  | a, dna, op :: rest =>
      match tableAssignCell used a dna op with
      | .error e => .error e
      | .ok (a', dna') => runTableOps used a' dna' rest

/-- The per-column "fully assigned length": `Some(len)` when every flag up
to `len` is set, `None` otherwise (lines 363-371). -/

def tableVals {F : Type} (dna : DnaMap F) : List (Option Nat) :=
  dna.map (fun e => if e.2.2.all (fun b => b) then some e.2.2.length else none)

/-- `Iterator::reduce` of the length-agreement combiner (lines 372-375):
`None` on an empty iterator, otherwise the fold of "equal `Some`s survive". -/

def reduceVals : List (Option Nat) → Option (Option Nat)
  | [] => none
  | v :: rest =>
      some (rest.foldl
        (fun acc item =>
          match acc, item with
          | some x, some y => if x = y then some x else none
          | _, _ => none) v)

/-- The back-fill loop (lines 386-392): fill every participating column
from `first_unused` with its captured default.  The source `unwrap`s the
default (provably present for any completed column); the unreachable
missing-default case is embedded as an error. -/

def fillAll {F : Type} (a : Assembly F) (first_unused : Nat) :
    DnaMap F → Except Err (Assembly F)
  | [] => .ok a
  | (col, (d, _)) :: rest =>
      match d with
      | none => .error .Synthesis
      | some dv =>
          match a.fill_from_row col first_unused dv with
          | .error e => .error e
          | .ok a' => fillAll a' first_unused rest

/-- The completion check of `assign_table` (lines 360-394): all columns
must agree on a fully-assigned length, the participating columns are then
sealed against further table use, and their tails are back-filled with the
row-0 defaults. -/

def finishTable {F : Type} (l : SCLayouter) (a : Assembly F) (dna : DnaMap F) :
    SCLayouter × Assembly F × Except Err Unit :=
  match reduceVals (tableVals dna) with
  | some (some first_unused) =>
      let l' := { l with tableColumns := l.tableColumns ++ dna.map (fun e => e.1) }
      match fillAll a first_unused dna with
      | .error e => (l', a, .error e)
      | .ok a' => (l', a', .ok ())
  | _ => (l, a, .error .Synthesis)

/-- `SingleChipLayouter::assign_table` (lines 343-395). -/

def assignTable {F : Type} (l : SCLayouter) (a : Assembly F)
    (tops : List (TableOp F)) : SCLayouter × Assembly F × Except Err Unit :=
  match runTableOps l.tableColumns a [] tops with
  | .error e => (l, a, .error e)
  | .ok (a', dna) => finishTable l a' dna

/-- The copies emitted by a successful constants consolidation, as pure
data: the i-th request is bound to row `row + i` of the constants column. -/

def constCopies {F : Type} (regions : List Nat) (cc : Column) :
    Nat → List (F × Cell) → List (CopyCell × CopyCell)
  | _, [] => []
  | row, (_, cell) :: rest =>
      (⟨cc, row⟩,
        (⟨cell.column, regionRow regions cell.region_index + cell.row_offset⟩ : CopyCell)) ::
        constCopies regions cc (row + 1) rest

/-- Read one grid cell. -/

def gridGet {F : Type} (g : List (List F)) (c r : Nat) : Option F :=
  (g.get? c).bind (fun col => col.get? r)

/-!
### Fork validation (C4)
-/

/-- Spec-side acceptance predicate for `fork`: the ranges are presented in
non-decreasing, non-overlapping order starting at or after `lo`, and every
range ends inside the window (the union of the windows stays within
`lo..stopv`). -/

def goodRanges (lo stopv : Nat) : List RowRange → Bool
  | [] => true
  | r :: rest =>
      decide (lo ≤ r.start) && decide (r.stop ≤ stopv) &&
        goodRanges r.stop stopv rest

/-- The assembly state after a successful `fill_from_row`. -/

def fillResult {F : Type} (a : Assembly F) (col from_row : Nat) (v : F) :
    Assembly F :=
  let f := fun (cv : List F) =>
    ((List.range' a.usable_rows.start
      (a.usable_rows.stop - a.usable_rows.start)).drop from_row).foldl
      (fun c r => c.set r v) cv
  { a with fixed := modifyAt a.fixed col f }

/-!
### Batch error behaviour (C3)
-/

/-- The parent assembly after a merge: the permutation builder extended
with the given replayed constraints. -/

def mergedAssembly {F : Type} (a : Assembly F)
    (ps : List (CopyCell × CopyCell)) : Assembly F :=
  { a with permutation := some ps }

/-!
### Sequential / parallel constraint bookkeeping (C5)
-/

/-- The well-formedness the floor planner relies on: equality constraints
reference only cells of already-created regions (region indices below the
bound). -/

def cellRefOk {F : Type} (bound : Nat) : RegionOp F → Bool
  | .constrainEq lc rc =>
      decide (lc.region_index < bound) && decide (rc.region_index < bound)
  | _ => true

/-- Every region in the batch references only regions up to and including
itself. -/

def refsOkB {F : Type} : Nat → List (List (RegionOp F)) → Bool
  | _, [] => true
  | base, ops :: rest => ops.all (cellRefOk (base + 1)) && refsOkB (base + 1) rest

/-- The equality constraints the sequential driver applies, in its
interleaved order: each region's own constraints followed immediately by
its constants-consolidation constraints. -/

def seqCopies {F : Type} (regions : List Nat) (cc : Column) :
    Nat → Nat → List (List (RegionOp F)) → List (CopyCell × CopyCell)
  | _, _, [] => []
  | base, cursor, ops :: rest =>
      emitCopies regions base ops ++
        constCopies regions cc cursor (emitConsts base ops) ++
        seqCopies regions cc (base + 1)
          (cursor + (emitConsts (F := F) base ops).length) rest

/-- The buffered constraints the parallel driver replays at merge time, in
sub-context (= region) order. -/

def parEmits {F : Type} (regions : List Nat) :
    Nat → List (List (RegionOp F)) → List (CopyCell × CopyCell)
  | _, [] => []
  | base, ops :: rest => emitCopies regions base ops ++ parEmits regions (base + 1) rest

/-- All constants collected across the batch, in sub-context order. -/

def parConsts {F : Type} : Nat → List (List (RegionOp F)) → List (F × Cell)
  | _, [] => []
  | base, ops :: rest => emitConsts base ops ++ parConsts (base + 1) rest

/-- A concrete parent layouter with one constants column (fixed 0). -/

def layouterW : SCLayouter := ⟨[⟨.fixed, 0⟩], [], [], []⟩

/-- A concrete keygen context over `Nat` with a permutation builder. -/

def assemblyW : Assembly Nat :=
  ⟨3, [List.replicate 8 0], some [], [], ⟨0, 8⟩, [], ⟨0, 8⟩⟩

/-- A two-region batch sharing advice column 0 (the regions place at rows
0 and 1), the second region constraining its cell to the first region's. -/

def sharedBatch : List (List (RegionOp Nat)) :=
  [[.assignAdvice 0 0 (some 1)],
    [.assignAdvice 0 0 (some 2),
      .constrainEq ⟨1, 0, ⟨.advice, 0⟩⟩ ⟨0, 0, ⟨.advice, 0⟩⟩]]

/-- A concrete parent layouter with no constants column. -/

def layouterCE : SCLayouter := ⟨[], [], [], []⟩

/-- A concrete keygen context over `Nat` with a permutation builder and no
fixed columns. -/

def assemblyCE : Assembly Nat := ⟨3, [], some [], [], ⟨0, 8⟩, [], ⟨0, 8⟩⟩

/-- A two-region batch on disjoint advice columns, each region with a
reflexive equality constraint on its own cell. -/

def disjointBatch : List (List (RegionOp Nat)) :=
  [[.assignAdvice 0 0 (some 1),
      .constrainEq ⟨0, 0, ⟨.advice, 0⟩⟩ ⟨0, 0, ⟨.advice, 0⟩⟩],
    [.assignAdvice 1 0 (some 1),
      .constrainEq ⟨1, 0, ⟨.advice, 1⟩⟩ ⟨1, 0, ⟨.advice, 1⟩⟩]]

theorem lookupD_insertCol_self (m : ColMap) (c : RegionColumn) (v : Nat) :
    lookupD (insertCol m c v) c = v := by
  induction m with
  | nil => simp [insertCol, lookupD]
  | cons kv rest ih =>
      obtain ⟨k, w⟩ := kv
      by_cases h : k = c
      · simp [insertCol, h, lookupD]
      · simp [insertCol, h, lookupD, ih]

theorem lookupD_insertCol_ne (m : ColMap) (c c' : RegionColumn) (v : Nat)
    (h : c ≠ c') : lookupD (insertCol m c v) c' = lookupD m c' := by
  induction m with
  | nil => simp [insertCol, lookupD, h]
  | cons kv rest ih =>
      obtain ⟨k, w⟩ := kv
      by_cases hk : k = c
      · subst hk
        simp [insertCol, lookupD, h]
      · simp [insertCol, hk, lookupD, ih]

theorem lookupD_advanceColumns (m : ColMap) (cols : List RegionColumn)
    (v : Nat) (c : RegionColumn) :
    lookupD (advanceColumns m cols v) c =
      if c ∈ cols then v else lookupD m c := by
  induction cols generalizing m with
  | nil => simp [advanceColumns]
  | cons d ds ih =>
      show lookupD (advanceColumns (insertCol m d v) ds v) c = _
      rw [ih]
      by_cases hc : c ∈ ds
      · simp [hc, List.mem_cons]
      · by_cases hd : c = d
        · subst hd
          simp [hc, lookupD_insertCol_self]
        · have : c ∉ (d :: ds) := by
            simp [List.mem_cons, hd, hc]
          simp [hc, this, lookupD_insertCol_ne m d c v (fun h => hd h.symm)]

theorem regionStart_foldl_ge_init (m : ColMap) (cols : List RegionColumn)
    (a : Nat) : a ≤ cols.foldl (fun acc c => max acc (lookupD m c)) a := by
  induction cols generalizing a with
  | nil => simp
  | cons d ds ih =>
      exact le_trans (le_max_left _ _) (ih (max a (lookupD m d)))

theorem foldl_max_lookup_ge (m : ColMap) (cols : List RegionColumn) :
    ∀ c ∈ cols, ∀ (a : Nat),
      lookupD m c ≤ cols.foldl (fun acc x => max acc (lookupD m x)) a := by
  induction cols with
  | nil => intro c hc; cases hc
  | cons d ds ih =>
      intro c hc a
      rcases List.mem_cons.mp hc with h | h
      · subst h
        exact le_trans (le_max_right _ _) (regionStart_foldl_ge_init m ds _)
      · exact ih c h _

/-- The chosen starting row dominates every touched column's frontier. -/

theorem regionStart_ge (m : ColMap) (cols : List RegionColumn)
    (c : RegionColumn) (hc : c ∈ cols) : lookupD m c ≤ regionStart m cols :=
  foldl_max_lookup_ge m cols c hc 0

theorem foldl_max_achieved (m : ColMap) (cols : List RegionColumn) :
    ∀ (a : Nat), cols.foldl (fun acc x => max acc (lookupD m x)) a = a ∨
      ∃ c ∈ cols, cols.foldl (fun acc x => max acc (lookupD m x)) a = lookupD m c := by
  induction cols with
  | nil => intro a; left; rfl
  | cons d ds ih =>
      intro a
      rw [List.foldl_cons]
      rcases ih (max a (lookupD m d)) with h | ⟨c, hc, h⟩
      · rcases Nat.le_total a (lookupD m d) with hle | hle
        · right
          refine ⟨d, List.mem_cons_self d ds, ?_⟩
          rw [h]
          exact max_eq_right hle
        · left
          rw [h]
          exact max_eq_left hle
      · right
        exact ⟨c, List.mem_cons_of_mem _ hc, h⟩

/-- Either no column constrains the start (it is 0) or the start is exactly
some touched column's frontier: i.e. the start is the max of the frontiers. -/

theorem regionStart_achieved (m : ColMap) (cols : List RegionColumn) :
    regionStart m cols = 0 ∨
      ∃ c ∈ cols, regionStart m cols = lookupD m c :=
  foldl_max_achieved m cols 0

theorem passInv_step (cc : RegionColumn) (st : PassState) (e : PassEvent)
    (h : passInv cc st) : passInv cc (stepEvent cc st e) := by
  obtain ⟨hA, hB, hC, hD⟩ := h
  cases e with
  | region s =>
      simp only [stepEvent, passInv]
      refine ⟨?_, ?_, ?_, ?_⟩
      · intro p hp c hc
        rw [lookupD_advanceColumns]
        rcases List.mem_append.mp hp with hp | hp
        · by_cases hmem : c ∈ s.columns
          · simp only [hmem, if_true]
            exact le_trans (hA p hp c hc)
              (le_trans (regionStart_ge st.columns s.columns c hmem)
                (Nat.le_add_right _ _))
          · simp only [hmem, if_false]
            exact hA p hp c hc
        · have : p = (regionStart st.columns s.columns, s) := by
            simpa using hp
          subst this
          simp only [hc, if_true]
          exact Nat.le_refl _
      · intro iv hiv
        rw [lookupD_advanceColumns]
        by_cases hmem : cc ∈ s.columns
        · simp only [hmem, if_true]
          exact le_trans (hB iv hiv)
            (le_trans (regionStart_ge st.columns s.columns cc hmem)
              (Nat.le_add_right _ _))
        · simp only [hmem, if_false]
          exact hB iv hiv
      · rw [List.pairwise_append]
        refine ⟨hC, ?_, ?_⟩
        · simp
        · intro p hp q hq
          have : q = (regionStart st.columns s.columns, s) := by
            simpa using hq
          subst this
          intro c hcp hcq
          exact le_trans (hA p hp c hcp)
            (regionStart_ge st.columns s.columns c hcq)
      · intro iv hiv p hp hcc
        rcases List.mem_append.mp hp with hp | hp
        · exact hD iv hiv p hp hcc
        · have : p = (regionStart st.columns s.columns, s) := by
            simpa using hp
          subst this
          left
          exact le_trans (hB iv hiv)
            (regionStart_ge st.columns s.columns cc hcc)
  | consts k =>
      simp only [stepEvent, passInv]
      refine ⟨?_, ?_, hC, ?_⟩
      · intro p hp c hc
        by_cases hcc : c = cc
        · subst hcc
          rw [lookupD_insertCol_self]
          exact le_trans (hA p hp c hc) (Nat.le_add_right _ _)
        · rw [lookupD_insertCol_ne _ _ _ _ (fun h => hcc h.symm)]
          exact hA p hp c hc
      · intro iv hiv
        rw [lookupD_insertCol_self]
        rcases List.mem_append.mp hiv with hiv | hiv
        · exact le_trans (hB iv hiv) (Nat.le_add_right _ _)
        · have : iv = (lookupD st.columns cc, k) := by
            simpa using hiv
          subst this
          simp
      · intro iv hiv p hp hcc
        rcases List.mem_append.mp hiv with hiv | hiv
        · exact hD iv hiv p hp hcc
        · have : iv = (lookupD st.columns cc, k) := by
            simpa using hiv
          subst this
          right
          exact hA p hp cc hcc

theorem passInv_runPass (cc : RegionColumn) (evs : List PassEvent) :
    passInv cc (runPass cc evs) := by
  have base : passInv cc ⟨[], [], []⟩ := by
    refine ⟨?_, ?_, ?_, ?_⟩ <;> simp
  unfold runPass
  generalize hst : (⟨[], [], []⟩ : PassState) = st at base
  clear hst
  induction evs generalizing st with
  | nil => exact base
  | cons e es ih => exact ih (stepEvent cc st e) (passInv_step cc st e base)

/-!
## Claim theorems
-/

/-- C1: the starting row chosen by `assign_region` is the maximum occupancy
frontier over the columns recorded by the shape probe (0 for unseen
columns): it dominates every touched column's frontier and is either 0 or
exactly some touched column's frontier.  Immediately after placement every
touched column's frontier equals `starting_row + row_count`.  In
particular, for sequential regions A on `{X, Y}` with 3 rows and B on
`{Y, Z}` with 2 rows, A starts at row 0 and B starts at row 3, leaving the
frontiers of Y and Z at 5. -/

theorem C1_greedy_placement :
    (∀ (m : ColMap) (s : RegionShape),
      (∀ c ∈ s.columns, lookupD m c ≤ (layoutRegion m s).1) ∧
      ((layoutRegion m s).1 = 0 ∨
        ∃ c ∈ s.columns, (layoutRegion m s).1 = lookupD m c) ∧
      (∀ c ∈ s.columns,
        lookupD (layoutRegion m s).2 c = (layoutRegion m s).1 + s.row_count)) ∧
    ((layoutRegion [] ⟨[.column ⟨.advice, 0⟩, .column ⟨.advice, 1⟩], 3⟩).1 = 0 ∧
      (layoutRegion (layoutRegion []
          ⟨[.column ⟨.advice, 0⟩, .column ⟨.advice, 1⟩], 3⟩).2
        ⟨[.column ⟨.advice, 1⟩, .column ⟨.advice, 2⟩], 2⟩).1 = 3 ∧
      lookupD (layoutRegion (layoutRegion []
          ⟨[.column ⟨.advice, 0⟩, .column ⟨.advice, 1⟩], 3⟩).2
        ⟨[.column ⟨.advice, 1⟩, .column ⟨.advice, 2⟩], 2⟩).2
        (.column ⟨.advice, 1⟩) = 5 ∧
      lookupD (layoutRegion (layoutRegion []
          ⟨[.column ⟨.advice, 0⟩, .column ⟨.advice, 1⟩], 3⟩).2
        ⟨[.column ⟨.advice, 1⟩, .column ⟨.advice, 2⟩], 2⟩).2
        (.column ⟨.advice, 2⟩) = 5) := by
  constructor
  · intro m s
    refine ⟨?_, ?_, ?_⟩
    · intro c hc
      exact regionStart_ge m s.columns c hc
    · exact regionStart_achieved m s.columns
    · intro c hc
      show lookupD (advanceColumns m s.columns _) c = _
      rw [lookupD_advanceColumns]
      simp only [hc, if_true]
      rfl
  · decide

theorem C1_greedy_placement_witness :
    lookupD [((RegionColumn.column ⟨.advice, 0⟩ : RegionColumn), 4)]
        (.column ⟨.advice, 0⟩) ≤
      (layoutRegion [((RegionColumn.column ⟨.advice, 0⟩ : RegionColumn), 4)]
        ⟨[.column ⟨.advice, 0⟩], 2⟩).1 :=
  (C1_greedy_placement.1 _ _).1 _ (by decide)

/-- C2: along any synthesis pass (any interleaving of region placements —
from `assign_region` or the batch loop of `assign_regions` — and constants
consolidations), no two placed regions occupy overlapping absolute row
intervals on a column they both touch. -/

theorem C2_no_overlap (cc : RegionColumn) (evs : List PassEvent) :
    (runPass cc evs).placements.Pairwise
      (fun p q => ∀ c, c ∈ p.2.columns → c ∈ q.2.columns →
        p.1 + p.2.row_count ≤ q.1 ∨ q.1 + q.2.row_count ≤ p.1) := by
  have h := (passInv_runPass cc evs).2.2.1
  exact h.imp (fun hpq c hcp hcq => Or.inl (hpq c hcp hcq))

theorem C2_no_overlap_witness :
    (runPass (.column ⟨.fixed, 9⟩)
        [.region ⟨[.column ⟨.advice, 0⟩], 3⟩,
          .region ⟨[.column ⟨.advice, 0⟩], 2⟩]).placements.Pairwise
      (fun p q => ∀ c, c ∈ p.2.columns → c ∈ q.2.columns →
        p.1 + p.2.row_count ≤ q.1 ∨ q.1 + q.2.row_count ≤ p.1) :=
  C2_no_overlap _ _

/-- C10: the constants cursor and the occupancy frontier of the first
constants column are the same map entry: a consolidation of `k` constants
advances that entry by `k`, and placing a region that touches the constants
column moves the same entry to `start + row_count`; consequently the row
intervals used for consolidated constants never overlap the interval of
any placed region on the constants column. -/

theorem C10_shared_cursor (cc : RegionColumn) :
    (∀ (st : PassState) (k : Nat),
      lookupD (stepEvent cc st (.consts k)).columns cc =
        lookupD st.columns cc + k) ∧
    (∀ (st : PassState) (s : RegionShape), cc ∈ s.columns →
      lookupD (stepEvent cc st (.region s)).columns cc =
        regionStart st.columns s.columns + s.row_count) ∧
    (∀ (evs : List PassEvent), ∀ iv ∈ (runPass cc evs).constRows,
      ∀ p ∈ (runPass cc evs).placements,
        cc ∈ (p : Nat × RegionShape).2.columns →
          (iv : Nat × Nat).1 + iv.2 ≤ p.1 ∨ p.1 + p.2.row_count ≤ iv.1) := by
  refine ⟨?_, ?_, ?_⟩
  · intro st k
    simp [stepEvent, lookupD_insertCol_self]
  · intro st s hmem
    simp [stepEvent, lookupD_advanceColumns, hmem]
  · intro evs iv hiv p hp hcc
    exact (passInv_runPass cc evs).2.2.2 iv hiv p hp hcc

theorem C10_shared_cursor_witness :
    (0 + 2 ≤ 2 ∨ 2 + 1 ≤ 0) :=
  (C10_shared_cursor (.column ⟨.fixed, 0⟩)).2.2
    [.consts 2, .region ⟨[.column ⟨.fixed, 0⟩], 1⟩]
    (0, 2) (by decide)
    (2, ⟨[.column ⟨.fixed, 0⟩], 1⟩) (by decide) (by decide)

/-!
### Extraction lemmas for the assembly operations
-/

theorem enable_selector_ok {F : Type} {a a' : Assembly F} {s row : Nat}
    (h : a.enable_selector s row = .ok a') :
    a'.fixed = a.fixed ∧ a'.permutation = a.permutation ∧
      a'.copies = a.copies ∧ a'.rw_rows = a.rw_rows ∧
      a'.usable_rows = a.usable_rows ∧ a'.k = a.k ∧
      a.usable_rows.containsB row = true ∧ a.rw_rows.containsB row = true := by
  unfold Assembly.enable_selector at h
  split at h
  · exact absurd h (by simp)
  · rename_i hus
    split at h
    · exact absurd h (by simp)
    · rename_i hrw
      injection h with h2
      subst h2
      exact ⟨rfl, rfl, rfl, rfl, rfl, rfl, not_not.mp hus, not_not.mp hrw⟩

theorem enable_selector_error {F : Type} {a : Assembly F} {s row : Nat}
    {e : Err} (h : a.enable_selector s row = .error e) :
    e = .NotEnoughRowsAvailable a.k ∨ e = .Synthesis := by
  unfold Assembly.enable_selector at h
  split at h
  · injection h with h2
    exact Or.inl h2.symm
  · split at h
    · injection h with h2
      exact Or.inr h2.symm
    · exact absurd h (by simp)

theorem assign_fixed_ok {F : Type} {a a' : Assembly F} {col row : Nat}
    {tv : Option F} (h : a.assign_fixed col row tv = .ok a') :
    (∃ v, tv = some v ∧
      a'.fixed = modifyAt a.fixed col
        (fun cv => cv.set (row - a.rw_rows.start) v)) ∧
    a'.permutation = a.permutation ∧ a'.copies = a.copies ∧
    a'.rw_rows = a.rw_rows ∧ a'.usable_rows = a.usable_rows ∧
    a'.k = a.k ∧ a'.selectors = a.selectors ∧
    a.usable_rows.containsB row = true ∧ a.rw_rows.containsB row = true ∧
    ((a.fixed.get? col).bind
      (fun v => v.get? (row - a.rw_rows.start))).isSome = true := by
  unfold Assembly.assign_fixed at h
  split at h
  · exact absurd h (by simp)
  · rename_i hus
    split at h
    · exact absurd h (by simp)
    · rename_i hrw
      split at h
      · exact absurd h (by simp)
      · rename_i val hb
        cases tv with
        | none => exact absurd h (by simp)
        | some v =>
            simp only at h
            injection h with h2
            subst h2
            refine ⟨⟨v, rfl, rfl⟩, rfl, rfl, rfl, rfl, rfl, rfl,
              not_not.mp hus, not_not.mp hrw, by rw [hb]; rfl⟩

theorem assign_fixed_error {F : Type} {a : Assembly F} {col row : Nat}
    {tv : Option F} {e : Err} (h : a.assign_fixed col row tv = .error e) :
    e = .NotEnoughRowsAvailable a.k ∨ e = .Synthesis ∨ e = .BoundsFailure := by
  unfold Assembly.assign_fixed at h
  split at h
  · injection h with h2
    exact Or.inl h2.symm
  · split at h
    · injection h with h2
      exact Or.inr (Or.inl h2.symm)
    · split at h
      · injection h with h2
        exact Or.inr (Or.inr h2.symm)
      · cases tv with
        | none =>
            simp only at h
            injection h with h2
            exact Or.inr (Or.inl h2.symm)
        | some v => exact absurd h (by simp)

theorem copy_ok {F : Type} {a a' : Assembly F} {lc rc : Column} {lr rr : Nat}
    (h : a.copy lc lr rc rr = .ok a') :
    a'.fixed = a.fixed ∧ a'.selectors = a.selectors ∧
    a'.rw_rows = a.rw_rows ∧ a'.usable_rows = a.usable_rows ∧ a'.k = a.k ∧
    ((∃ ps, a.permutation = some ps ∧
        a'.permutation = some (ps ++ [(⟨lc, lr⟩, ⟨rc, rr⟩)]) ∧
        a'.copies = a.copies) ∨
      (a.permutation = none ∧ a'.permutation = none ∧
        a'.copies = a.copies ++ [(⟨lc, lr⟩, ⟨rc, rr⟩)])) ∧
    a.usable_rows.containsB lr = true ∧ a.usable_rows.containsB rr = true := by
  unfold Assembly.copy at h
  split at h
  · exact absurd h (by simp)
  · rename_i hus
    have husb : (a.usable_rows.containsB lr && a.usable_rows.containsB rr) = true :=
      not_not.mp hus
    have hus1 := (Bool.and_eq_true _ _).mp husb
    split at h
    · rename_i hp
      injection h with h2
      subst h2
      exact ⟨rfl, rfl, rfl, rfl, rfl, Or.inr ⟨hp, hp, rfl⟩, hus1.1, hus1.2⟩
    · rename_i ps hp
      injection h with h2
      subst h2
      exact ⟨rfl, rfl, rfl, rfl, rfl, Or.inl ⟨ps, hp, rfl, rfl⟩, hus1.1, hus1.2⟩

theorem copy_error {F : Type} {a : Assembly F} {lc rc : Column} {lr rr : Nat}
    {e : Err} (h : a.copy lc lr rc rr = .error e) :
    e = .NotEnoughRowsAvailable a.k := by
  unfold Assembly.copy at h
  split at h
  · injection h with h2
    exact h2.symm
  · split at h <;> exact absurd h (by simp)

/-!
### Properties of a region routine's run
-/

theorem stepOp_error {F : Type} {regions : List Nat} {idx : Nat}
    {a : Assembly F} {op : RegionOp F} {e : Err}
    (h : stepOp regions idx a op = .error e) :
    e = .NotEnoughRowsAvailable a.k ∨ e = .Synthesis ∨ e = .BoundsFailure := by
  cases op with
  | enableSel s off =>
      simp only [stepOp, bind, Except.bind] at h
      cases hs : a.enable_selector s (regionRow regions idx + off) <;> rw [hs] at h
      · injection h with h2
        subst h2
        exact (enable_selector_error hs).imp id Or.inl
      · exact absurd h (by simp)
  | assignAdvice col off v => exact absurd h (by simp [stepOp])
  | assignFixed col off v =>
      simp only [stepOp, bind, Except.bind] at h
      cases hs : a.assign_fixed col (regionRow regions idx + off) v <;> rw [hs] at h
      · injection h with h2
        subst h2
        exact assign_fixed_error hs
      · exact absurd h (by simp)
  | assignConst col off c => exact absurd h (by simp [stepOp])
  | constrainEq l r =>
      simp only [stepOp, bind, Except.bind] at h
      cases hs : a.copy l.column (regionRow regions l.region_index + l.row_offset)
          r.column (regionRow regions r.region_index + r.row_offset) <;> rw [hs] at h
      · injection h with h2
        subst h2
        exact Or.inl (copy_error hs)
      · exact absurd h (by simp)

theorem stepOp_ok_consts {F : Type} {regions : List Nat} {idx : Nat}
    {a : Assembly F} {op : RegionOp F} {p : Assembly F × List (F × Cell)}
    (h : stepOp regions idx a op = .ok p) : p.2 = emitConsts idx [op] := by
  cases op with
  | enableSel s off =>
      simp only [stepOp, bind, Except.bind] at h
      cases hs : a.enable_selector s (regionRow regions idx + off) <;> rw [hs] at h
      · exact absurd h (by simp)
      · injection h with h2
        subst h2
        simp [emitConsts]
  | assignAdvice col off v =>
      simp only [stepOp] at h
      injection h with h2
      subst h2
      simp [emitConsts]
  | assignFixed col off v =>
      simp only [stepOp, bind, Except.bind] at h
      cases hs : a.assign_fixed col (regionRow regions idx + off) v <;> rw [hs] at h
      · exact absurd h (by simp)
      · injection h with h2
        subst h2
        simp [emitConsts]
  | assignConst col off c =>
      simp only [stepOp] at h
      injection h with h2
      subst h2
      simp [emitConsts]
  | constrainEq l r =>
      simp only [stepOp, bind, Except.bind] at h
      cases hs : a.copy l.column (regionRow regions l.region_index + l.row_offset)
          r.column (regionRow regions r.region_index + r.row_offset) <;> rw [hs] at h
      · exact absurd h (by simp)
      · injection h with h2
        subst h2
        simp [emitConsts]

theorem emitConsts_cons {F : Type} (idx : Nat) (op : RegionOp F)
    (rest : List (RegionOp F)) :
    emitConsts idx (op :: rest) = emitConsts idx [op] ++ emitConsts idx rest := by
  cases op <;> simp [emitConsts]

theorem runOpsGo_cons_ok {F : Type} {regions : List Nat} {idx : Nat}
    {a a' : Assembly F} {cs newConsts : List (F × Cell)} {op : RegionOp F}
    {rest : List (RegionOp F)}
    (h : stepOp regions idx a op = .ok (a', newConsts)) :
    runOpsGo regions idx a cs (op :: rest) =
      runOpsGo regions idx a' (cs ++ newConsts) rest := by
  simp [runOpsGo, h]

theorem runOpsGo_cons_error {F : Type} {regions : List Nat} {idx : Nat}
    {a : Assembly F} {cs : List (F × Cell)} {op : RegionOp F}
    {rest : List (RegionOp F)} {e : Err}
    (h : stepOp regions idx a op = .error e) :
    runOpsGo regions idx a cs (op :: rest) = ((a, cs), .error e) := by
  simp [runOpsGo, h]

theorem runOpsGo_error_ne {F : Type} (regions : List Nat) (idx : Nat) :
    ∀ (ops : List (RegionOp F)) (a : Assembly F) (cs : List (F × Cell)),
      (runOpsGo regions idx a cs ops).2 ≠ .error .NotEnoughColumnsForConstants := by
  intro ops
  induction ops with
  | nil =>
      intro a cs
      simp [runOpsGo]
  | cons op rest ih =>
      intro a cs
      cases hstep : stepOp regions idx a op with
      | error e =>
          rw [runOpsGo_cons_error hstep]
          intro hc
          injection hc with hc2
          subst hc2
          rcases stepOp_error hstep with h | h | h <;> cases h
      | ok p =>
          obtain ⟨a', newConsts⟩ := p
          rw [runOpsGo_cons_ok hstep]
          exact ih a' (cs ++ newConsts)

/-- A successful run requests exactly the constants of its op list, and an
aborted run requests a prefix of them. -/

theorem runOpsGo_consts {F : Type} (regions : List Nat) (idx : Nat) :
    ∀ (ops : List (RegionOp F)) (a : Assembly F) (cs : List (F × Cell)),
      ((runOpsGo regions idx a cs ops).2 = .ok () →
        (runOpsGo regions idx a cs ops).1.2 = cs ++ emitConsts idx ops) ∧
      (∃ e, (runOpsGo regions idx a cs ops).1.2 = cs ++ e ∧
        e <+: emitConsts idx ops) := by
  intro ops
  induction ops with
  | nil =>
      intro a cs
      constructor
      · intro _
        simp [runOpsGo, emitConsts]
      · exact ⟨[], by simp [runOpsGo], by simp⟩
  | cons op rest ih =>
      intro a cs
      cases hstep : stepOp regions idx a op with
      | error e =>
          rw [runOpsGo_cons_error hstep]
          constructor
          · intro hok
            simp at hok
          · exact ⟨[], by simp, by simp⟩
      | ok p =>
          obtain ⟨a', newConsts⟩ := p
          have hnew : newConsts = emitConsts idx [op] :=
            stepOp_ok_consts (p := (a', newConsts)) hstep
          rw [runOpsGo_cons_ok hstep]
          constructor
          · intro hok
            have hrec := (ih a' (cs ++ newConsts)).1 hok
            rw [hrec, hnew, emitConsts_cons idx op rest]
            simp
          · obtain ⟨e, he, hpre⟩ := (ih a' (cs ++ newConsts)).2
            refine ⟨newConsts ++ e, by rw [he]; simp, ?_⟩
            rw [emitConsts_cons idx op rest, ← hnew]
            obtain ⟨t, ht⟩ := hpre
            exact ⟨t, by rw [List.append_assoc, ht]⟩

/-!
### Equation lemmas for `assignRegion` and the consolidation step
-/

theorem assignRegion_run_error {F : Type} {l : SCLayouter} {a a' : Assembly F}
    {ops : List (RegionOp F)} {cs : List (F × Cell)} {e : Err}
    (h : runOpsGo (placeOne l (probeShape ops)).regions l.regions.length a [] ops =
      ((a', cs), .error e)) :
    assignRegion l a ops = (placeOne l (probeShape ops), a', .error e) := by
  simp [assignRegion, h]

theorem assignRegion_run_ok {F : Type} {l : SCLayouter} {a a' : Assembly F}
    {ops : List (RegionOp F)} {cs : List (F × Cell)}
    (h : runOpsGo (placeOne l (probeShape ops)).regions l.regions.length a [] ops =
      ((a', cs), .ok ())) :
    assignRegion l a ops =
      (match assignConstantsStep (placeOne l (probeShape ops)) a' cs with
        | .error e => (placeOne l (probeShape ops), a', .error e)
        | .ok (l2, a2) => (l2, a2, .ok ())) := by
  simp [assignRegion, h]

theorem assignConstantsStep_no_col_no_req {F : Type} {l : SCLayouter}
    {a : Assembly F} (h : l.constants = []) :
    assignConstantsStep l a [] = .ok (l, a) := by
  simp [assignConstantsStep, h]

theorem assignConstantsStep_no_col_req {F : Type} {l : SCLayouter}
    {a : Assembly F} {c0 : F × Cell} {cs : List (F × Cell)}
    (h : l.constants = []) :
    assignConstantsStep l a (c0 :: cs) = .error .NotEnoughColumnsForConstants := by
  simp [assignConstantsStep, h]

/-- C7: with no constants column configured, a region whose routine makes
at least one constant-assignment request (and otherwise materializes
successfully) fails with `NotEnoughColumnsForConstants`; with zero requests
`assign_region` never fails with that error. -/

theorem C7_no_constants_column {F : Type} (l : SCLayouter) (a : Assembly F)
    (ops : List (RegionOp F)) (hconst : l.constants = []) :
    ((runOpsGo (placeOne l (probeShape ops)).regions l.regions.length a [] ops).2 =
        .ok () →
      emitConsts l.regions.length ops ≠ [] →
      (assignRegion l a ops).2.2 = .error .NotEnoughColumnsForConstants) ∧
    (emitConsts l.regions.length ops = [] →
      (assignRegion l a ops).2.2 ≠ .error .NotEnoughColumnsForConstants) := by
  constructor
  · intro hok hreq
    cases hrun : runOpsGo (placeOne l (probeShape ops)).regions l.regions.length
        a [] ops with
    | mk p res =>
        obtain ⟨a', cs⟩ := p
        rw [hrun] at hok
        simp only at hok
        subst hok
        have hcs : cs = [] ++ emitConsts l.regions.length ops := by
          have := (runOpsGo_consts (placeOne l (probeShape ops)).regions
            l.regions.length ops a []).1
          rw [hrun] at this
          exact this rfl
        rw [assignRegion_run_ok hrun]
        cases hemit : emitConsts l.regions.length ops with
        | nil => exact absurd hemit hreq
        | cons c0 crest =>
            rw [hemit] at hcs
            simp only [List.nil_append] at hcs
            subst hcs
            have hconst1 : (placeOne l (probeShape ops)).constants = [] := hconst
            rw [assignConstantsStep_no_col_req hconst1]
  · intro hreq
    cases hrun : runOpsGo (placeOne l (probeShape ops)).regions l.regions.length
        a [] ops with
    | mk p res =>
        obtain ⟨a', cs⟩ := p
        cases res with
        | error e =>
            rw [assignRegion_run_error hrun]
            intro hc
            injection hc with hc2
            have := runOpsGo_error_ne (placeOne l (probeShape ops)).regions
              l.regions.length ops a []
            rw [hrun] at this
            simp only at this
            exact this (by rw [hc2])
        | ok u =>
            cases u
            have hcs : cs = [] ++ emitConsts l.regions.length ops := by
              have := (runOpsGo_consts (placeOne l (probeShape ops)).regions
                l.regions.length ops a []).1
              rw [hrun] at this
              exact this rfl
            rw [hreq] at hcs
            simp only [List.append_nil, List.nil_append] at hcs
            subst hcs
            have hconst1 : (placeOne l (probeShape ops)).constants = [] := hconst
            rw [assignRegion_run_ok hrun, assignConstantsStep_no_col_no_req hconst1]
            simp

theorem C7_no_constants_column_witness :
    (assignRegion (⟨[], [], [], []⟩ : SCLayouter)
        (⟨1, [], some [], [], ⟨0, 4⟩, [], ⟨0, 4⟩⟩ : Assembly Nat)
        [.assignConst 0 0 5]).2.2 = .error .NotEnoughColumnsForConstants :=
  (C7_no_constants_column (⟨[], [], [], []⟩ : SCLayouter)
      (⟨1, [], some [], [], ⟨0, 4⟩, [], ⟨0, 4⟩⟩ : Assembly Nat)
      [.assignConst 0 0 5] rfl).1 rfl (by decide)

/-!
### Grid update lemmas
-/

theorem modifyAt_get?_self {α : Type} (g : List α) (i : Nat) (f : α → α) :
    (modifyAt g i f).get? i = (g.get? i).map f := by
  induction g generalizing i with
  | nil => simp [modifyAt]
  | cons x xs ih =>
      cases i with
      | zero => simp [modifyAt]
      | succ n => simpa [modifyAt] using ih n

theorem modifyAt_get?_ne {α : Type} (g : List α) (i j : Nat) (f : α → α)
    (h : i ≠ j) : (modifyAt g i f).get? j = g.get? j := by
  induction g generalizing i j with
  | nil => simp [modifyAt]
  | cons x xs ih =>
      cases i with
      | zero =>
          cases j with
          | zero => exact absurd rfl h
          | succ m => simp [modifyAt]
      | succ n =>
          cases j with
          | zero => simp [modifyAt]
          | succ m => simpa [modifyAt] using ih n m (fun hc => h (by rw [hc]))

theorem gridGet_modifyAt_set_self {F : Type} (g : List (List F)) (c r : Nat)
    (v : F) (h : (gridGet g c r).isSome = true) :
    gridGet (modifyAt g c (fun cv => cv.set r v)) c r = some v := by
  unfold gridGet at h ⊢
  rw [modifyAt_get?_self]
  cases hc : g.get? c with
  | none => rw [hc] at h; simp at h
  | some col =>
      rw [hc] at h
      simp only [Option.some_bind] at h
      have hr : r < col.length := by
        by_contra hcon
        rw [List.get?_eq_none.mpr (Nat.le_of_not_lt hcon)] at h
        simp at h
      simp only [Option.map_some', Option.some_bind]
      exact List.get?_set_eq_of_lt v hr

theorem gridGet_modifyAt_set_frame {F : Type} (g : List (List F)) (c r : Nat)
    (v : F) (c' r' : Nat) (h : c' ≠ c ∨ r' ≠ r) :
    gridGet (modifyAt g c (fun cv => cv.set r v)) c' r' = gridGet g c' r' := by
  unfold gridGet
  by_cases hcc : c' = c
  · subst hcc
    rcases h with h | h
    · exact absurd rfl h
    · rw [modifyAt_get?_self]
      cases hc : g.get? c' with
      | none => simp
      | some col =>
          simp only [Option.map_some', Option.some_bind]
          exact List.get?_set_ne v col (Ne.symm h)
  · rw [modifyAt_get?_ne _ _ _ _ (fun hc => hcc hc.symm)]

/-!
### The consolidation loop
-/

theorem goConsts_cons_err1 {F : Type} {regions : List Nat} {cc : Column}
    {a : Assembly F} {row : Nat} {c : F} {cell : Cell}
    {rest : List (F × Cell)} {e : Err}
    (h1 : a.assign_fixed cc.index row (some c) = .error e) :
    goConsts regions cc a row ((c, cell) :: rest) = .error e := by
  simp [goConsts, h1, bind, Except.bind]

theorem goConsts_cons_err2 {F : Type} {regions : List Nat} {cc : Column}
    {a a1 : Assembly F} {row : Nat} {c : F} {cell : Cell}
    {rest : List (F × Cell)} {e : Err}
    (h1 : a.assign_fixed cc.index row (some c) = .ok a1)
    (h2 : a1.copy cc row cell.column
      (regionRow regions cell.region_index + cell.row_offset) = .error e) :
    goConsts regions cc a row ((c, cell) :: rest) = .error e := by
  simp [goConsts, h1, h2, bind, Except.bind]

theorem goConsts_cons_eq {F : Type} {regions : List Nat} {cc : Column}
    {a a1 a2 : Assembly F} {row : Nat} {c : F} {cell : Cell}
    {rest : List (F × Cell)}
    (h1 : a.assign_fixed cc.index row (some c) = .ok a1)
    (h2 : a1.copy cc row cell.column
      (regionRow regions cell.region_index + cell.row_offset) = .ok a2) :
    goConsts regions cc a row ((c, cell) :: rest) =
      goConsts regions cc a2 (row + 1) rest := by
  simp [goConsts, h1, h2, bind, Except.bind]

theorem goConsts_ok {F : Type} (regions : List Nat) (cc : Column) :
    ∀ (consts : List (F × Cell)) (a a' : Assembly F) (row rowN : Nat)
      (P : List (CopyCell × CopyCell)),
      a.permutation = some P → a.rw_rows.start = 0 →
      goConsts regions cc a row consts = .ok (a', rowN) →
      rowN = row + consts.length ∧
      a'.permutation = some (P ++ constCopies regions cc row consts) ∧
      a'.rw_rows = a.rw_rows ∧
      (∀ col y, y < row → gridGet a'.fixed col y = gridGet a.fixed col y) ∧
      (∀ i (hi : i < consts.length),
        gridGet a'.fixed cc.index (row + i) = some (consts.get ⟨i, hi⟩).1) := by
  intro consts
  induction consts with
  | nil =>
      intro a a' row rowN P hperm hrw hok
      simp only [goConsts] at hok
      injection hok with hok2
      injection hok2 with ha hrow
      subst ha
      subst hrow
      refine ⟨by simp, ?_, rfl, fun col y _ => rfl,
        fun i hi => absurd hi (by simp)⟩
      simp [constCopies, hperm]
  | cons hd rest ih =>
      obtain ⟨c, cell⟩ := hd
      intro a a' row rowN P hperm hrw hok
      cases h1 : Assembly.assign_fixed a cc.index row (some c) with
      | error e =>
          rw [goConsts_cons_err1 h1] at hok
          simp at hok
      | ok a1 =>
          cases h2 : a1.copy cc row cell.column
              (regionRow regions cell.region_index + cell.row_offset) with
          | error e =>
              rw [goConsts_cons_err2 h1 h2] at hok
              simp at hok
          | ok a2 =>
              rw [goConsts_cons_eq h1 h2] at hok
              obtain ⟨⟨v, hv, hfix1⟩, hperm1, _, hrw1, _, _, _, _, _, hbound⟩ :=
                assign_fixed_ok h1
              injection hv with hveq
              subst hveq
              obtain ⟨hfix2, _, hrw2, _, _, hcase, _, _⟩ := copy_ok h2
              have hperm1P : a1.permutation = some P := by rw [hperm1, hperm]
              rcases hcase with ⟨ps, hps, hp2, _⟩ | ⟨hnone, _, _⟩
              · rw [hperm1P] at hps
                injection hps with hpseq
                subst hpseq
                have hrw2z : a2.rw_rows.start = 0 := by rw [hrw2, hrw1, hrw]
                obtain ⟨hlen, hpermF, hrwF, hframe, hvals⟩ :=
                  ih a2 a' (row + 1) rowN _ hp2 hrw2z hok
                have hfix2eq : a2.fixed =
                    modifyAt a.fixed cc.index (fun cv => cv.set row c) := by
                  rw [hfix2, hfix1, hrw, Nat.sub_zero]
                have hboundz : (gridGet a.fixed cc.index row).isSome = true := by
                  have hb2 := hbound
                  rw [hrw, Nat.sub_zero] at hb2
                  exact hb2
                refine ⟨?_, ?_, ?_, ?_, ?_⟩
                · rw [hlen]
                  simp [Nat.add_assoc, Nat.add_comm 1 rest.length]
                · rw [hpermF]
                  simp [constCopies, List.append_assoc]
                · rw [hrwF, hrw2, hrw1]
                · intro col y hy
                  rw [hframe col y (Nat.lt_succ_of_lt hy), hfix2eq,
                    gridGet_modifyAt_set_frame _ _ _ _ _ _
                      (Or.inr (Nat.ne_of_lt hy))]
                · intro i hi
                  cases i with
                  | zero =>
                      rw [Nat.add_zero,
                        hframe cc.index row (Nat.lt_succ_self row), hfix2eq,
                        gridGet_modifyAt_set_self _ _ _ _ hboundz]
                      rfl
                  | succ j =>
                      have hj : j < rest.length := by
                        simpa [Nat.succ_lt_succ_iff] using hi
                      have hv2 := hvals j hj
                      rw [show row + 1 + j = row + (j + 1) by omega] at hv2
                      rw [hv2]
                      rfl
              · rw [hperm1P] at hnone
                cases hnone

/-- C6: with a constants column configured, the requests of a consolidation
step are processed in request order: the i-th request is written into the
first constants column at row `cursor + i`, an equality constraint is
registered between that position and the requesting cell's absolute
position (`region start + row offset`), and the cursor entry ends at
`cursor + n` — so the assigned rows are a function of the initial cursor
and the request index only (identical across runs). -/

theorem C6_constants_in_order {F : Type} (l : SCLayouter) (a : Assembly F)
    (cc : Column) (tlc : List Column) (consts : List (F × Cell))
    (l' : SCLayouter) (a' : Assembly F) (P : List (CopyCell × CopyCell))
    (hcc : l.constants = cc :: tlc)
    (hperm : a.permutation = some P)
    (hrw : a.rw_rows.start = 0)
    (hok : assignConstantsStep l a consts = .ok (l', a')) :
    a'.permutation = some (P ++ constCopies l.regions cc
        (lookupD l.columns (.column cc)) consts) ∧
    (∀ i (hi : i < consts.length),
      gridGet a'.fixed cc.index (lookupD l.columns (.column cc) + i) =
        some (consts.get ⟨i, hi⟩).1) ∧
    lookupD l'.columns (.column cc) =
      lookupD l.columns (.column cc) + consts.length ∧
    l'.regions = l.regions := by
  rw [assignConstantsStep, hcc] at hok
  simp only at hok
  cases hg : goConsts l.regions cc a (lookupD l.columns (.column cc)) consts with
  | error e =>
      rw [hg] at hok
      simp at hok
  | ok p =>
      obtain ⟨a2, rowN⟩ := p
      rw [hg] at hok
      simp only at hok
      injection hok with hok2
      injection hok2 with hl2 ha2
      subst ha2
      obtain ⟨hlen, hpermF, _, _, hvals⟩ :=
        goConsts_ok l.regions cc consts a a2 _ rowN P hperm hrw hg
      refine ⟨hpermF, hvals, ?_, ?_⟩
      · rw [← hl2]
        show lookupD (insertCol l.columns (.column cc) rowN) (.column cc) = _
        rw [lookupD_insertCol_self]
        exact hlen
      · rw [← hl2]

theorem C6_constants_in_order_witness :
    lookupD (insertCol ([] : ColMap) (.column ⟨.fixed, 0⟩) 2)
        (.column ⟨.fixed, 0⟩) =
      lookupD ([] : ColMap) (.column ⟨.fixed, 0⟩) + 2 :=
  (C6_constants_in_order
    (⟨[⟨.fixed, 0⟩], [0], [], []⟩ : SCLayouter)
    (⟨1, [[9, 9, 9, 9]], some [], [], ⟨0, 4⟩, [], ⟨0, 4⟩⟩ : Assembly Nat)
    ⟨.fixed, 0⟩ [] [(5, ⟨0, 0, ⟨.advice, 0⟩⟩), (7, ⟨0, 1, ⟨.advice, 0⟩⟩)]
    ⟨[⟨.fixed, 0⟩], [0], insertCol [] (.column ⟨.fixed, 0⟩) 2, []⟩
    ⟨1, [[5, 7, 9, 9]], some
        [(⟨⟨.fixed, 0⟩, 0⟩, ⟨⟨.advice, 0⟩, 0⟩), (⟨⟨.fixed, 0⟩, 1⟩, ⟨⟨.advice, 0⟩, 1⟩)],
      [], ⟨0, 4⟩, [], ⟨0, 4⟩⟩
    [] rfl rfl rfl (by rfl)).2.2.1

theorem forkCheck_ok_or_synthesis (stopv : Nat) :
    ∀ (ranges : List RowRange) (lo : Nat),
      forkCheck lo stopv ranges = .ok () ∨
        forkCheck lo stopv ranges = .error .Synthesis := by
  intro ranges
  induction ranges with
  | nil => intro lo; left; rfl
  | cons r rest ih =>
      intro lo
      simp only [forkCheck]
      split
      · right; rfl
      · split
        · right; rfl
        · exact ih r.stop

theorem goodRanges_head_le (stopv : Nat) :
    ∀ (ranges : List RowRange) (lo : Nat),
      (∀ r ∈ ranges, r.start ≤ r.stop) →
      goodRanges lo stopv ranges = true →
      ranges ≠ [] → lo ≤ stopv := by
  intro ranges
  cases ranges with
  | nil => intro lo _ _ hne; exact absurd rfl hne
  | cons r rest =>
      intro lo hwf hg _
      simp only [goodRanges, Bool.and_eq_true, decide_eq_true_eq] at hg
      have h1 : lo ≤ r.start := hg.1.1
      have h2 : r.stop ≤ stopv := hg.1.2
      have h3 : r.start ≤ r.stop := hwf r (List.mem_cons_self r rest)
      omega

theorem forkCheck_iff_goodRanges (stopv : Nat) :
    ∀ (ranges : List RowRange) (lo : Nat),
      (∀ r ∈ ranges, r.start ≤ r.stop) →
      (forkCheck lo stopv ranges = .ok () ↔
        goodRanges lo stopv ranges = true) := by
  intro ranges
  induction ranges with
  | nil => intro lo _; simp [forkCheck, goodRanges]
  | cons r rest ih =>
      intro lo hwf
      have hwfr : ∀ x ∈ rest, x.start ≤ x.stop :=
        fun x hx => hwf x (List.mem_cons_of_mem r hx)
      simp only [forkCheck, goodRanges]
      split
      · rename_i hlt
        constructor
        · intro h; exact absurd h (by simp)
        · intro h
          simp only [Bool.and_eq_true, decide_eq_true_eq] at h
          omega
      · rename_i hge
        split
        · rename_i hlast
          have hempty : rest = [] := by
            rcases Bool.and_eq_true _ _ |>.mp hlast with ⟨h1, _⟩
            exact List.isEmpty_iff.mp h1
          subst hempty
          constructor
          · intro h; exact absurd h (by simp)
          · intro h
            simp only [Bool.and_eq_true, decide_eq_true_eq] at h
            rcases Bool.and_eq_true _ _ |>.mp hlast with ⟨_, h2⟩
            simp only [decide_eq_true_eq] at h2
            omega
        · rename_i hnot
          constructor
          · intro h
            have hrest := (ih r.stop hwfr).mp h
            simp only [Bool.and_eq_true, decide_eq_true_eq]
            refine ⟨⟨by omega, ?_⟩, hrest⟩
            cases hre : rest with
            | nil =>
                subst hre
                simp only [List.isEmpty_nil, Bool.true_and,
                  decide_eq_true_eq] at hnot
                omega
            | cons r2 rest2 =>
                have := goodRanges_head_le stopv rest r.stop hwfr hrest
                  (by rw [hre]; simp)
                exact this
          · intro h
            simp only [Bool.and_eq_true, decide_eq_true_eq] at h
            exact (ih r.stop hwfr).mpr h.2

/-- C4: for well-formed row ranges, `fork` rejects (with a synthesis error,
before carving any sub-window) exactly the inputs that are out of order /
overlapping or whose windows escape the parent's read/write window;
otherwise it returns one sub-context per range whose read/write window is
exactly that range, with no permutation builder and an empty copy buffer. -/

theorem C4_fork_windows {F : Type} (a : Assembly F) (ranges : List RowRange)
    (hwf : ∀ r ∈ ranges, r.start ≤ r.stop) :
    (goodRanges a.rw_rows.start a.rw_rows.stop ranges = false →
      a.fork ranges = .error .Synthesis) ∧
    (goodRanges a.rw_rows.start a.rw_rows.stop ranges = true →
      ∃ subs, a.fork ranges = .ok subs ∧ subs.length = ranges.length ∧
        ∀ i (hi : i < ranges.length) (hi2 : i < subs.length),
          (subs.get ⟨i, hi2⟩).rw_rows = ranges.get ⟨i, hi⟩ ∧
          (subs.get ⟨i, hi2⟩).permutation = none ∧
          (subs.get ⟨i, hi2⟩).copies = [] ∧
          (subs.get ⟨i, hi2⟩).usable_rows = a.usable_rows) := by
  constructor
  · intro hbad
    unfold Assembly.fork
    rcases forkCheck_ok_or_synthesis a.rw_rows.stop ranges a.rw_rows.start with
      hok | herr
    · have := (forkCheck_iff_goodRanges a.rw_rows.stop ranges a.rw_rows.start
        hwf).mp hok
      rw [this] at hbad
      cases hbad
    · rw [herr]
  · intro hgood
    have hok := (forkCheck_iff_goodRanges a.rw_rows.stop ranges a.rw_rows.start
      hwf).mpr hgood
    refine ⟨ranges.map (subAssembly a), ?_, by simp, ?_⟩
    · unfold Assembly.fork
      rw [hok]
    · intro i hi hi2
      have hg : (ranges.map (subAssembly a)).get ⟨i, hi2⟩ =
          subAssembly a (ranges.get ⟨i, hi⟩) := by
        simp [List.get_map]
      rw [hg]
      exact ⟨rfl, rfl, rfl, rfl⟩

theorem C4_fork_windows_witness :
    ∃ subs, Assembly.fork
        (⟨2, [[0, 0, 0, 0, 0, 0, 0, 0]], some [], [], ⟨0, 6⟩, [], ⟨0, 6⟩⟩ :
          Assembly Nat) [⟨0, 3⟩, ⟨3, 5⟩] = .ok subs ∧
      subs.length = [(⟨0, 3⟩ : RowRange), ⟨3, 5⟩].length ∧
      ∀ i (hi : i < [(⟨0, 3⟩ : RowRange), ⟨3, 5⟩].length)
        (hi2 : i < subs.length),
        (subs.get ⟨i, hi2⟩).rw_rows = [(⟨0, 3⟩ : RowRange), ⟨3, 5⟩].get ⟨i, hi⟩ ∧
        (subs.get ⟨i, hi2⟩).permutation = none ∧
        (subs.get ⟨i, hi2⟩).copies = [] ∧
        (subs.get ⟨i, hi2⟩).usable_rows = (⟨0, 6⟩ : RowRange) :=
  (C4_fork_windows
    (⟨2, [[0, 0, 0, 0, 0, 0, 0, 0]], some [], [], ⟨0, 6⟩, [], ⟨0, 6⟩⟩ :
      Assembly Nat) [⟨0, 3⟩, ⟨3, 5⟩] (by decide)).2 (by decide)

/-!
### Table cell rules (C9)
-/

/-- C9: a table-cell write is rejected when its column was sealed by an
earlier completed `assign_table` pass (`used_columns`); within one pass,
the first row-0 write of a column (whose capability write succeeds)
establishes the column's default value, and a second row-0 write for the
same column is an error. -/

theorem C9_table_cell {F : Type} (used : List Nat) (a a1 : Assembly F)
    (dna : DnaMap F) (op : TableOp F) :
    (op.col ∈ used → tableAssignCell used a dna op = .error .Synthesis) ∧
    (op.col ∉ used → op.offset = 0 →
      a.assign_fixed op.col op.offset op.v = .ok a1 →
      (∀ d, ((dnaLookup dna op.col).getD (none, [])).1 = some d →
        tableAssignCell used a dna op = .error .Synthesis) ∧
      (((dnaLookup dna op.col).getD (none, [])).1 = none →
        tableAssignCell used a dna op =
          .ok (a1, dnaInsert dna op.col
            (some op.v, markAssigned ((dnaLookup dna op.col).getD (none, [])).2 0)))) := by
  obtain ⟨c0, off0, v0⟩ := op
  constructor
  · intro hmem
    simp [tableAssignCell, hmem]
  · intro hmem hoff hfix
    simp only at hoff hfix
    subst hoff
    constructor
    · intro d hd
      simp only at hd
      simp only [tableAssignCell, if_neg hmem, hfix, hd]
    · intro hd
      simp only at hd
      simp only [tableAssignCell, if_neg hmem, hfix, hd]

theorem C9_table_cell_witness :
    tableAssignCell [3]
        (⟨1, [[0, 0]], some [], [], ⟨0, 2⟩, [], ⟨0, 2⟩⟩ : Assembly Nat)
        [] ⟨3, 0, some 7⟩ = .error .Synthesis :=
  (C9_table_cell [3]
    (⟨1, [[0, 0]], some [], [], ⟨0, 2⟩, [], ⟨0, 2⟩⟩ : Assembly Nat)
    (⟨1, [[0, 0]], some [], [], ⟨0, 2⟩, [], ⟨0, 2⟩⟩ : Assembly Nat)
    [] ⟨3, 0, some 7⟩).1 (by decide)

/-!
### Table completion machinery (C8)
-/

theorem reduceVals_combine_all {L : Nat} :
    ∀ (rest : List (Option Nat)) (acc : Option Nat),
      (rest.foldl
        (fun acc item =>
          match acc, item with
          | some x, some y => if x = y then some x else none
          | _, _ => none) acc = some L) ↔
      (acc = some L ∧ ∀ v ∈ rest, v = some L) := by
  intro rest
  induction rest with
  | nil => intro acc; simp
  | cons v rest ih =>
      intro acc
      rw [List.foldl_cons, ih]
      constructor
      · rintro ⟨hcomb, hall⟩
        have hacc : acc = some L ∧ v = some L := by
          cases acc with
          | none => simp at hcomb
          | some x =>
              cases v with
              | none => simp at hcomb
              | some y =>
                  by_cases hxy : x = y
                  · subst hxy
                    simp at hcomb
                    subst hcomb
                    exact ⟨rfl, rfl⟩
                  · simp [hxy] at hcomb
        exact ⟨hacc.1, by
          intro w hw
          rcases List.mem_cons.mp hw with hw | hw
          · rw [hw]; exact hacc.2
          · exact hall w hw⟩
      · rintro ⟨hacc, hall⟩
        have hv : v = some L := hall v (List.mem_cons_self v rest)
        subst hacc
        rw [hv]
        simp
        exact fun w hw => hall w (List.mem_cons_of_mem v hw)

theorem reduceVals_eq_some {vals : List (Option Nat)} {L : Nat}
    (hne : vals ≠ []) :
    reduceVals vals = some (some L) ↔ ∀ v ∈ vals, v = some L := by
  cases vals with
  | nil => exact absurd rfl hne
  | cons v rest =>
      simp only [reduceVals, Option.some.injEq]
      rw [reduceVals_combine_all]
      constructor
      · rintro ⟨hv, hall⟩
        intro w hw
        rcases List.mem_cons.mp hw with hw | hw
        · rw [hw]; exact hv
        · exact hall w hw
      · intro hall
        exact ⟨hall v (List.mem_cons_self v rest),
          fun w hw => hall w (List.mem_cons_of_mem v hw)⟩

theorem range'_drop : ∀ (n s k : Nat),
    (List.range' s n).drop k = List.range' (s + k) (n - k) := by
  intro n
  induction n with
  | zero => intro s k; simp
  | succ m ih =>
      intro s k
      cases k with
      | zero => simp
      | succ j =>
          rw [List.range'_succ, List.drop_succ_cons, ih (s + 1) j]
          congr 1 <;> omega

theorem foldl_set_get? {F : Type} (v : F) :
    ∀ (rows : List Nat) (col : List F) (y : Nat),
      (rows.foldl (fun c r => c.set r v) col).get? y =
        if y ∈ rows ∧ y < col.length then some v else col.get? y := by
  intro rows
  induction rows with
  | nil => intro col y; simp
  | cons r rest ih =>
      intro col y
      rw [List.foldl_cons, ih]
      by_cases hmem : y ∈ rest
      · by_cases hlen : y < col.length
        · simp [hmem, hlen]
        · have hthis : ¬ y < (col.set r v).length := by simpa using hlen
          simp only [hmem, hlen, hthis, and_false, if_false, true_and, if_neg]
          rw [List.get?_eq_none.mpr (by simp; omega),
            List.get?_eq_none.mpr (by omega)]
      · by_cases hyr : y = r
        · subst hyr
          by_cases hlen : y < col.length
          · have h1 : ¬ (y ∈ rest ∧ y < (col.set y v).length) := by
              simp [hmem]
            simp only [h1, if_neg h1]
            rw [List.get?_set_eq_of_lt v hlen]
            simp [hlen]
          · have h1 : ¬ (y ∈ rest ∧ y < (col.set y v).length) := by
              simp [hmem]
            simp only [if_neg h1]
            have h2 : ¬ (y ∈ y :: rest ∧ y < col.length) := by
              simp [hlen]
            rw [if_neg h2]
            have : col.set y v = col := by
              apply List.set_eq_of_length_le
              omega
            rw [this]
        · have h1 : (y ∈ rest ∧ y < (col.set r v).length) ↔
              (y ∈ r :: rest ∧ y < col.length) := by
            simp [hmem, hyr, List.mem_cons]
          rw [if_congr h1 rfl rfl]
          by_cases h2 : y ∈ r :: rest ∧ y < col.length
          · simp [h2]
          · rw [if_neg h2, if_neg h2]
            exact List.get?_set_ne v col (fun hc => hyr hc.symm)

theorem fill_from_row_eq {F : Type} {a : Assembly F} {col from_row : Nat}
    {v : F} (hus : a.usable_rows.containsB from_row = true)
    (hcol : (a.fixed.get? col).isSome = true) :
    a.fill_from_row col from_row (some v) = .ok (fillResult a col from_row v) := by
  unfold Assembly.fill_from_row fillResult
  rw [if_neg (by simp [hus])]
  cases hc : a.fixed.get? col with
  | none => rw [hc] at hcol; simp at hcol
  | some cv => rfl

theorem fillResult_usable {F : Type} (a : Assembly F) (col from_row : Nat)
    (v : F) : (fillResult a col from_row v).usable_rows = a.usable_rows := rfl

theorem fillResult_get_ne {F : Type} (a : Assembly F) (col from_row : Nat)
    (v : F) (c : Nat) (hc : c ≠ col) :
    (fillResult a col from_row v).fixed.get? c = a.fixed.get? c :=
  modifyAt_get?_ne _ _ _ _ (fun h => hc h.symm)

theorem fillResult_grid_self {F : Type} (a : Assembly F) (col from_row : Nat)
    (v : F) (cv : List F) (y : Nat)
    (hstart : a.usable_rows.start = 0)
    (hcv : a.fixed.get? col = some cv)
    (hlen : a.usable_rows.stop ≤ cv.length)
    (hfrom : from_row ≤ y) (hstop : y < a.usable_rows.stop) :
    gridGet (fillResult a col from_row v).fixed col y = some v := by
  unfold fillResult gridGet
  simp only
  rw [modifyAt_get?_self, hcv]
  simp only [Option.map_some', Option.some_bind]
  rw [foldl_set_get?, if_pos]
  constructor
  · rw [range'_drop, hstart]
    simp only [Nat.zero_add, Nat.sub_zero, List.mem_range'_1]
    exact ⟨hfrom, by omega⟩
  · omega

theorem fillAll_ok {F : Type} (L : Nat) :
    ∀ (dna : DnaMap F) (a : Assembly F),
      a.usable_rows.start = 0 →
      a.usable_rows.containsB L = true →
      (∀ e ∈ dna, ∃ cv, a.fixed.get? e.1 = some cv ∧
        a.usable_rows.stop ≤ cv.length) →
      (∀ e ∈ dna, ∃ v, e.2.1 = some (some v)) →
      (dna.map (fun e => e.1)).Nodup →
      ∃ a', fillAll a L dna = .ok a' ∧
        a'.usable_rows = a.usable_rows ∧
        (∀ c y, (∀ e ∈ dna, e.1 ≠ c) →
          gridGet a'.fixed c y = gridGet a.fixed c y) ∧
        (∀ e ∈ dna, ∀ v, e.2.1 = some (some v) → ∀ y, L ≤ y →
          y < a.usable_rows.stop → gridGet a'.fixed e.1 y = some v) := by
  intro dna
  induction dna with
  | nil =>
      intro a _ _ _ _ _
      exact ⟨a, rfl, rfl, fun c y _ => rfl, fun e he => absurd he (by simp)⟩
  | cons hd rest ih =>
      obtain ⟨col0, d, flags⟩ := hd
      intro a hstart hcont hlens hdefs hnodup
      obtain ⟨v0, hv0⟩ := hdefs (col0, (d, flags)) (List.mem_cons_self _ _)
      simp only at hv0
      obtain ⟨cv0, hcv0, hcv0len⟩ := hlens (col0, (d, flags))
        (List.mem_cons_self _ _)
      simp only at hcv0
      have hfill := @fill_from_row_eq F a col0 L v0 hcont (by rw [hcv0]; rfl)
      have hcol0rest : ∀ e ∈ rest, e.1 ≠ col0 := by
        intro e he hc
        simp only [List.map_cons, List.nodup_cons] at hnodup
        exact hnodup.1 (by
          rw [← hc]
          exact List.mem_map_of_mem (fun e => e.1) he)
      obtain ⟨a2, hfa, hus2, hframe2, hvals2⟩ := ih (fillResult a col0 L v0)
        (by rw [fillResult_usable]; exact hstart)
        (by rw [fillResult_usable]; exact hcont)
        (by
          intro e he
          obtain ⟨cv, hcv, hlen⟩ := hlens e (List.mem_cons_of_mem _ he)
          exact ⟨cv, by rw [fillResult_get_ne _ _ _ _ _ (hcol0rest e he)]; exact hcv,
            by rw [fillResult_usable]; exact hlen⟩)
        (fun e he => hdefs e (List.mem_cons_of_mem _ he))
        (by
          simp only [List.map_cons, List.nodup_cons] at hnodup
          exact hnodup.2)
      refine ⟨a2, ?_, ?_, ?_, ?_⟩
      · show fillAll a L ((col0, (d, flags)) :: rest) = .ok a2
        simp only [fillAll, hv0, hfill]
        exact hfa
      · rw [hus2, fillResult_usable]
      · intro c y hc
        have hccol0 : col0 ≠ c :=
          hc (col0, (d, flags)) (List.mem_cons_self _ _)
        rw [hframe2 c y (fun e he => hc e (List.mem_cons_of_mem _ he))]
        unfold gridGet
        rw [fillResult_get_ne _ _ _ _ _ (fun h => hccol0 h.symm)]
      · intro e he v hv y hLy hystop
        rcases List.mem_cons.mp he with he | he
        · subst he
          simp only at hv
          rw [hv0] at hv
          injection hv with hv2
          injection hv2 with hv3
          subst hv3
          have hframe0 : gridGet a2.fixed col0 y =
              gridGet (fillResult a col0 L v0).fixed col0 y :=
            hframe2 col0 y hcol0rest
          rw [hframe0]
          exact fillResult_grid_self a col0 L v0 cv0 y hstart hcv0 hcv0len hLy hystop
        · exact hvals2 e he v hv y hLy
            (by rw [fillResult_usable]; exact hystop)

/-- C8: on completion of `assign_table`, if every participating column is
fully assigned up to one common length L, the table is accepted: the
participating columns are sealed into `table_columns` and every usable row
`>= L` of each column is back-filled with that column's row-0 default via
the range-fill operation.  If the columns disagree on the fully-assigned
length (or any has a gap), `assign_table` fails with a hard (synthesis)
error — in particular two fully-assigned columns of lengths 5 and 4 fail. -/

theorem C8_table_completion {F : Type} :
    (∀ (l : SCLayouter) (a : Assembly F) (dna : DnaMap F) (L : Nat),
      dna ≠ [] →
      (∀ e ∈ dna, e.2.2.all (fun b => b) = true ∧ e.2.2.length = L) →
      a.usable_rows.start = 0 →
      a.usable_rows.containsB L = true →
      (∀ e ∈ dna, ∃ cv, a.fixed.get? e.1 = some cv ∧
        a.usable_rows.stop ≤ cv.length) →
      (∀ e ∈ dna, ∃ v, e.2.1 = some (some v)) →
      (dna.map (fun e => e.1)).Nodup →
      ∃ a', finishTable l a dna =
          ({ l with tableColumns := l.tableColumns ++ dna.map (fun e => e.1) },
            a', .ok ()) ∧
        (∀ e ∈ dna, ∀ v, e.2.1 = some (some v) → ∀ y, L ≤ y →
          y < a.usable_rows.stop → gridGet a'.fixed e.1 y = some v)) ∧
    (∀ (l : SCLayouter) (a : Assembly F) (dna : DnaMap F),
      dna ≠ [] →
      (¬ ∃ L, ∀ e ∈ dna, e.2.2.all (fun b => b) = true ∧ e.2.2.length = L) →
      finishTable l a dna = (l, a, .error .Synthesis)) ∧
    (assignTable (⟨[], [], [], []⟩ : SCLayouter)
      (⟨3, [List.replicate 8 0, List.replicate 8 0], some [], [], ⟨0, 8⟩, [],
        ⟨0, 8⟩⟩ : Assembly Nat)
      [⟨0, 0, some 1⟩, ⟨0, 1, some 1⟩, ⟨0, 2, some 1⟩, ⟨0, 3, some 1⟩,
        ⟨0, 4, some 1⟩, ⟨1, 0, some 2⟩, ⟨1, 1, some 2⟩, ⟨1, 2, some 2⟩,
        ⟨1, 3, some 2⟩]).2.2 = .error .Synthesis := by
  refine ⟨?_, ?_, by rfl⟩
  · intro l a dna L hne hagree hstart hcont hlens hdefs hnodup
    have hvals : ∀ x ∈ tableVals dna, x = some L := by
      intro x hx
      obtain ⟨e, he, hxe⟩ := List.mem_map.mp hx
      obtain ⟨h1, h2⟩ := hagree e he
      rw [← hxe]
      simp [h1, h2]
    have hvne : tableVals dna ≠ [] := by
      cases dna with
      | nil => exact absurd rfl hne
      | cons e rest => simp [tableVals]
    have hred : reduceVals (tableVals dna) = some (some L) :=
      (reduceVals_eq_some hvne).mpr hvals
    obtain ⟨a', hfa, hus', hframe, hvals'⟩ :=
      fillAll_ok L dna a hstart hcont hlens hdefs hnodup
    refine ⟨a', ?_, hvals'⟩
    unfold finishTable
    rw [hred]
    simp only [hfa]
  · intro l a dna hne hnagree
    unfold finishTable
    cases hred : reduceVals (tableVals dna) with
    | none => rfl
    | some o =>
        cases o with
        | none => rfl
        | some L =>
            exfalso
            have hvne : tableVals dna ≠ [] := by
              cases dna with
              | nil => exact absurd rfl hne
              | cons e rest => simp [tableVals]
            have hall := (reduceVals_eq_some hvne).mp hred
            apply hnagree
            refine ⟨L, fun e he => ?_⟩
            have hx := hall _ (List.mem_map_of_mem _ he)
            by_cases hb : e.2.2.all (fun b => b) = true
            · refine ⟨hb, ?_⟩
              simp only [hb, if_true] at hx
              injection hx
            · simp [hb] at hx

theorem C8_table_completion_witness :
    ∃ a', finishTable (⟨[], [], [], []⟩ : SCLayouter)
        (⟨1, [[0, 0, 0]], some [], [], ⟨0, 3⟩, [], ⟨0, 3⟩⟩ : Assembly Nat)
        [(0, (some (some 7), [true, true]))] =
        ((⟨[], [], [], [0]⟩ : SCLayouter), a', .ok ()) ∧
      (∀ e ∈ ([(0, (some (some 7), [true, true]))] : DnaMap Nat),
        ∀ v, e.2.1 = some (some v) → ∀ y, 2 ≤ y → y < 3 →
          gridGet a'.fixed e.1 y = some v) :=
  (C8_table_completion (F := Nat)).1
    (⟨[], [], [], []⟩ : SCLayouter)
    (⟨1, [[0, 0, 0]], some [], [], ⟨0, 3⟩, [], ⟨0, 3⟩⟩ : Assembly Nat)
    [(0, (some (some 7), [true, true]))] 2
    (by decide) (by decide) rfl (by decide)
    (by
      intro e he
      simp only [List.mem_singleton] at he
      subst he
      exact ⟨[0, 0, 0], rfl, by decide⟩)
    (by
      intro e he
      simp only [List.mem_singleton] at he
      subst he
      exact ⟨7, rfl⟩)
    (by decide)

theorem merge_eq {F : Type} {a : Assembly F} {P : List (CopyCell × CopyCell)}
    (hperm : a.permutation = some P) (subs : List (Assembly F)) :
    a.merge subs =
      .ok (mergedAssembly a (P ++ subs.flatMap (fun s => s.copies))) := by
  simp [Assembly.merge, mergedAssembly, hperm]

theorem collectResults_first_error :
    ∀ (pre post : List (Except Err Unit)) (e : Err),
      (∀ r ∈ pre, r = .ok ()) →
      collectResults (pre ++ .error e :: post) = .error e := by
  intro pre
  induction pre with
  | nil => intro post e _; rfl
  | cons r rest ih =>
      intro post e hpre
      have hr : r = .ok () := hpre r (List.mem_cons_self r rest)
      subst hr
      show collectResults (.ok () :: (rest ++ .error e :: post)) = .error e
      exact ih post e (fun r hr => hpre r (List.mem_cons_of_mem _ hr))

theorem collectResults_ok_iff :
    ∀ (rs : List (Except Err Unit)),
      collectResults rs = .ok () ↔ ∀ r ∈ rs, r = .ok () := by
  intro rs
  induction rs with
  | nil => simp [collectResults]
  | cons r rest ih =>
      cases r with
      | error e =>
          simp only [collectResults]
          constructor
          · intro h; exact absurd h (by simp)
          · intro h
            have := h (.error e) (List.mem_cons_self _ _)
            exact absurd this (by simp)
      | ok u =>
          cases u
          simp only [collectResults]
          rw [ih]
          constructor
          · intro h r hr
            rcases List.mem_cons.mp hr with hr | hr
            · rw [hr]
            · exact h r hr
          · intro h r hr
            exact h r (List.mem_cons_of_mem _ hr)

theorem fork_ok_subs {F : Type} {a : Assembly F} {rs : List RowRange}
    {subs : List (Assembly F)} (h : a.fork rs = .ok subs) :
    subs = rs.map (subAssembly a) := by
  unfold Assembly.fork at h
  cases hc : forkCheck a.rw_rows.start a.rw_rows.stop rs with
  | error e => rw [hc] at h; exact absurd h (by simp)
  | ok u =>
      cases u
      rw [hc] at h
      injection h with h2
      exact h2.symm

theorem placeBatch_ranges_length {F : Type} :
    ∀ (asms : List (List (RegionOp F))) (l : SCLayouter),
      (placeBatch l asms).2.length = asms.length := by
  intro asms
  induction asms with
  | nil => intro l; rfl
  | cons ops rest ih =>
      intro l
      simp only [placeBatch, List.length_cons]
      rw [ih]

theorem runSubs_length {F : Type} (regions : List Nat) :
    ∀ (ps : List (List (RegionOp F) × Assembly F)) (base : Nat),
      (runSubs regions base ps).length = ps.length := by
  intro ps
  induction ps with
  | nil => intro base; rfl
  | cons p rest ih =>
      obtain ⟨ops, sub⟩ := p
      intro base
      simp only [runSubs, List.length_cons]
      rw [ih]

/-- C3 (amended): with the parent's permutation builder attached and a
successful fork, every region's routine runs to completion in its
sub-context (one outcome per region), and when any outcome is an error the
caller receives the first error in region order; but the merge of the
sub-contexts into the parent IS performed before the outcomes are checked
(the parent's builder receives every buffered constraint even for a failed
batch), and the failed batch stops before constants consolidation. -/

theorem C3_batch_error_behaviour {F : Type} (l : SCLayouter) (a : Assembly F)
    (asms : List (List (RegionOp F))) (P : List (CopyCell × CopyCell))
    (subs : List (Assembly F)) (pre post : List (Except Err Unit)) (e : Err)
    (hperm : a.permutation = some P)
    (hfork : a.fork (placeBatch l asms).2 = .ok subs)
    (hsplit : (runSubs (placeBatch l asms).1.regions l.regions.length
        (asms.zip subs)).map (fun r => r.2) = pre ++ .error e :: post)
    (hpre : ∀ r ∈ pre, r = .ok ()) :
    (runSubs (placeBatch l asms).1.regions l.regions.length
      (asms.zip subs)).length = asms.length ∧
    assignRegionsM l a asms =
      ((placeBatch l asms).1,
        mergedAssembly a (P ++
          ((runSubs (placeBatch l asms).1.regions l.regions.length
            (asms.zip subs)).map (fun r => r.1.1)).flatMap
            (fun s => s.copies)),
        .error e) := by
  have hsubs := fork_ok_subs hfork
  have hlen : subs.length = asms.length := by
    rw [hsubs, List.length_map, placeBatch_ranges_length]
  constructor
  · rw [runSubs_length, List.length_zip, hlen, Nat.min_self]
  · have hmerge := merge_eq hperm
      ((runSubs (placeBatch l asms).1.regions l.regions.length
        (asms.zip subs)).map (fun r => r.1.1))
    have hcol : collectResults
        ((runSubs (placeBatch l asms).1.regions l.regions.length
          (asms.zip subs)).map (fun r => r.2)) = .error e := by
      rw [hsplit]
      exact collectResults_first_error pre post e hpre
    simp only [assignRegionsM, hfork, hmerge, hcol]

theorem C3_batch_error_behaviour_witness :
    (runSubs (placeBatch (⟨[], [], [], []⟩ : SCLayouter)
        [[(RegionOp.assignAdvice 0 0 none : RegionOp Nat),
            .constrainEq ⟨0, 0, ⟨.advice, 0⟩⟩ ⟨0, 0, ⟨.advice, 0⟩⟩],
          [.assignAdvice 0 0 none, .assignFixed 0 0 none]]).1.regions 0
      ([[(RegionOp.assignAdvice 0 0 none : RegionOp Nat),
            .constrainEq ⟨0, 0, ⟨.advice, 0⟩⟩ ⟨0, 0, ⟨.advice, 0⟩⟩],
          [.assignAdvice 0 0 none, .assignFixed 0 0 none]].zip
        [subAssembly (⟨3, [List.replicate 8 0], some [], [], ⟨0, 8⟩, [], ⟨0, 8⟩⟩ :
            Assembly Nat) ⟨0, 1⟩,
          subAssembly (⟨3, [List.replicate 8 0], some [], [], ⟨0, 8⟩, [], ⟨0, 8⟩⟩ :
            Assembly Nat) ⟨1, 2⟩])).length = 2 :=
  (C3_batch_error_behaviour (⟨[], [], [], []⟩ : SCLayouter)
    (⟨3, [List.replicate 8 0], some [], [], ⟨0, 8⟩, [], ⟨0, 8⟩⟩ : Assembly Nat)
    [[(RegionOp.assignAdvice 0 0 none : RegionOp Nat),
        .constrainEq ⟨0, 0, ⟨.advice, 0⟩⟩ ⟨0, 0, ⟨.advice, 0⟩⟩],
      [.assignAdvice 0 0 none, .assignFixed 0 0 none]]
    []
    [subAssembly (⟨3, [List.replicate 8 0], some [], [], ⟨0, 8⟩, [], ⟨0, 8⟩⟩ :
        Assembly Nat) ⟨0, 1⟩,
      subAssembly (⟨3, [List.replicate 8 0], some [], [], ⟨0, 8⟩, [], ⟨0, 8⟩⟩ :
        Assembly Nat) ⟨1, 2⟩]
    [.ok ()] [] .Synthesis rfl rfl rfl
    (by intro r hr; simp only [List.mem_singleton] at hr; exact hr)).1

/-- C3 counterexample to the claim as stated: a batch whose second region
errors still merges the first region's buffered constraint into the
parent's permutation builder — the merge step IS performed on a failed
batch (the source merges at line 288, before the error check at line 303). -/

theorem C3_merge_performed_on_failure :
    (assignRegionsM (⟨[], [], [], []⟩ : SCLayouter)
        (⟨3, [List.replicate 8 0], some [], [], ⟨0, 8⟩, [], ⟨0, 8⟩⟩ : Assembly Nat)
        [[.assignAdvice 0 0 none,
            .constrainEq ⟨0, 0, ⟨.advice, 0⟩⟩ ⟨0, 0, ⟨.advice, 0⟩⟩],
          [.assignAdvice 0 0 none, .assignFixed 0 0 none]]).2.2 =
      .error .Synthesis ∧
    (assignRegionsM (⟨[], [], [], []⟩ : SCLayouter)
        (⟨3, [List.replicate 8 0], some [], [], ⟨0, 8⟩, [], ⟨0, 8⟩⟩ : Assembly Nat)
        [[.assignAdvice 0 0 none,
            .constrainEq ⟨0, 0, ⟨.advice, 0⟩⟩ ⟨0, 0, ⟨.advice, 0⟩⟩],
          [.assignAdvice 0 0 none, .assignFixed 0 0 none]]).2.1.permutation =
      some [(⟨⟨.advice, 0⟩, 0⟩, ⟨⟨.advice, 0⟩, 0⟩)] :=
  ⟨rfl, rfl⟩

theorem emitCopies_cons {F : Type} (regions : List Nat) (idx : Nat)
    (op : RegionOp F) (rest : List (RegionOp F)) :
    emitCopies regions idx (op :: rest) =
      emitCopies regions idx [op] ++ emitCopies regions idx rest := by
  cases op <;> simp [emitCopies]

theorem regionRow_extend (r1 ext : List Nat) (idx : Nat) (h : idx < r1.length) :
    regionRow (r1 ++ ext) idx = regionRow r1 idx := by
  unfold regionRow
  rw [List.getD_append _ _ _ _ h]

theorem emitCopies_extend {F : Type} (r1 ext : List Nat) (idx : Nat) :
    ∀ (ops : List (RegionOp F)), ops.all (cellRefOk r1.length) = true →
      emitCopies (r1 ++ ext) idx ops = emitCopies r1 idx ops := by
  intro ops
  induction ops with
  | nil => intro _; rfl
  | cons op rest ih =>
      intro h
      rw [List.all_cons, Bool.and_eq_true] at h
      cases op with
      | constrainEq lc rc =>
          have hb := h.1
          simp only [cellRefOk, Bool.and_eq_true, decide_eq_true_eq] at hb
          simp only [emitCopies]
          rw [ih h.2, regionRow_extend _ _ _ hb.1, regionRow_extend _ _ _ hb.2]
      | enableSel s off => simp only [emitCopies]; exact ih h.2
      | assignAdvice c o v => simp only [emitCopies]; exact ih h.2
      | assignFixed c o v => simp only [emitCopies]; exact ih h.2
      | assignConst c o v => simp only [emitCopies]; exact ih h.2

theorem constCopies_extend {F : Type} (r1 ext : List Nat) (cc : Column) :
    ∀ (consts : List (F × Cell)) (cursor : Nat),
      (∀ p ∈ consts, (p : F × Cell).2.region_index < r1.length) →
      constCopies (r1 ++ ext) cc cursor consts =
        constCopies r1 cc cursor consts := by
  intro consts
  induction consts with
  | nil => intro cursor _; rfl
  | cons p rest ih =>
      obtain ⟨c, cell⟩ := p
      intro cursor h
      simp only [constCopies]
      rw [ih (cursor + 1) (fun q hq => h q (List.mem_cons_of_mem _ hq)),
        regionRow_extend _ _ _ (h (c, cell) (List.mem_cons_self _ _))]

theorem emitConsts_region {F : Type} :
    ∀ (ops : List (RegionOp F)) (idx : Nat),
      ∀ p ∈ emitConsts idx ops, (p : F × Cell).2.region_index = idx := by
  intro ops
  induction ops with
  | nil => intro idx p hp; cases hp
  | cons op rest ih =>
      intro idx p hp
      cases op with
      | assignConst c o v =>
          simp only [emitConsts] at hp
          rcases List.mem_cons.mp hp with hp | hp
          · rw [hp]
          · exact ih idx p hp
      | enableSel s o => exact ih idx p hp
      | assignAdvice c o v => exact ih idx p hp
      | assignFixed c o v => exact ih idx p hp
      | constrainEq lc rc => exact ih idx p hp

theorem constCopies_append {F : Type} (regions : List Nat) (cc : Column) :
    ∀ (xs ys : List (F × Cell)) (cursor : Nat),
      constCopies regions cc cursor (xs ++ ys) =
        constCopies regions cc cursor xs ++
          constCopies regions cc (cursor + xs.length) ys := by
  intro xs
  induction xs with
  | nil => intro ys cursor; simp [constCopies]
  | cons p rest ih =>
      obtain ⟨c, cell⟩ := p
      intro ys cursor
      simp only [List.cons_append, constCopies, List.length_cons, List.append_eq]
      rw [ih ys (cursor + 1)]
      have harith : cursor + 1 + rest.length = cursor + (rest.length + 1) := by
        omega
      rw [harith]

theorem stepOp_state {F : Type} {regions : List Nat} {idx : Nat}
    {a a1 : Assembly F} {op : RegionOp F} {nc : List (F × Cell)}
    (h : stepOp regions idx a op = .ok (a1, nc)) :
    a1.rw_rows = a.rw_rows ∧ a1.usable_rows = a.usable_rows ∧ a1.k = a.k ∧
    (∀ p, a.permutation = some p →
      a1.permutation = some (p ++ emitCopies regions idx [op]) ∧
      a1.copies = a.copies) ∧
    (a.permutation = none → a1.permutation = none ∧
      a1.copies = a.copies ++ emitCopies regions idx [op]) := by
  cases op with
  | enableSel s off =>
      simp only [stepOp, bind, Except.bind] at h
      cases hs : a.enable_selector s (regionRow regions idx + off) <;> rw [hs] at h
      · exact absurd h (by simp)
      · injection h with h2
        injection h2 with heq1 heq2
        subst heq1
        subst heq2
        obtain ⟨_, hperm, hcop, hrw, hus, hk, _, _⟩ := enable_selector_ok hs
        exact ⟨hrw, hus, hk,
          fun p hp => ⟨by rw [hperm, hp]; simp [emitCopies], hcop⟩,
          fun hp => ⟨by rw [hperm]; exact hp, by rw [hcop]; simp [emitCopies]⟩⟩
  | assignAdvice col off v =>
      simp only [stepOp] at h
      injection h with h2
      injection h2 with heq1 heq2
      subst heq1
      subst heq2
      exact ⟨rfl, rfl, rfl,
        fun p hp => ⟨by rw [hp]; simp [emitCopies], rfl⟩,
        fun hp => ⟨hp, by simp [emitCopies]⟩⟩
  | assignFixed col off v =>
      simp only [stepOp, bind, Except.bind] at h
      cases hs : a.assign_fixed col (regionRow regions idx + off) v <;> rw [hs] at h
      · exact absurd h (by simp)
      · injection h with h2
        injection h2 with heq1 heq2
        subst heq1
        subst heq2
        obtain ⟨_, hperm, hcop, hrw, hus, hk, _, _, _, _⟩ := assign_fixed_ok hs
        exact ⟨hrw, hus, hk,
          fun p hp => ⟨by rw [hperm, hp]; simp [emitCopies], hcop⟩,
          fun hp => ⟨by rw [hperm]; exact hp, by rw [hcop]; simp [emitCopies]⟩⟩
  | assignConst col off c =>
      simp only [stepOp] at h
      injection h with h2
      injection h2 with heq1 heq2
      subst heq1
      subst heq2
      exact ⟨rfl, rfl, rfl,
        fun p hp => ⟨by rw [hp]; simp [emitCopies], rfl⟩,
        fun hp => ⟨hp, by simp [emitCopies]⟩⟩
  | constrainEq lc rc =>
      simp only [stepOp, bind, Except.bind] at h
      cases hs : a.copy lc.column (regionRow regions lc.region_index + lc.row_offset)
          rc.column (regionRow regions rc.region_index + rc.row_offset) <;> rw [hs] at h
      · exact absurd h (by simp)
      · injection h with h2
        injection h2 with heq1 heq2
        subst heq1
        subst heq2
        obtain ⟨_, _, hrw, hus, hk, hcase, _, _⟩ := copy_ok hs
        refine ⟨hrw, hus, hk, ?_, ?_⟩
        · intro p hp
          rcases hcase with ⟨ps, hps, hp2, hcops⟩ | ⟨hnone, _, _⟩
          · rw [hp] at hps
            injection hps with hps2
            subst hps2
            exact ⟨by rw [hp2]; simp [emitCopies], hcops⟩
          · rw [hp] at hnone
            cases hnone
        · intro hp
          rcases hcase with ⟨ps, hps, _, _⟩ | ⟨_, hnone2, hcops⟩
          · rw [hp] at hps
            cases hps
          · exact ⟨hnone2, by rw [hcops]; simp [emitCopies]⟩

theorem runOpsGo_state {F : Type} (regions : List Nat) (idx : Nat) :
    ∀ (ops : List (RegionOp F)) (a : Assembly F) (cs : List (F × Cell))
      (a' : Assembly F) (cs' : List (F × Cell)),
      runOpsGo regions idx a cs ops = ((a', cs'), .ok ()) →
      a'.rw_rows = a.rw_rows ∧ a'.usable_rows = a.usable_rows ∧ a'.k = a.k ∧
      (∀ p, a.permutation = some p →
        a'.permutation = some (p ++ emitCopies regions idx ops) ∧
        a'.copies = a.copies) ∧
      (a.permutation = none → a'.permutation = none ∧
        a'.copies = a.copies ++ emitCopies regions idx ops) := by
  intro ops
  induction ops with
  | nil =>
      intro a cs a' cs' h
      simp only [runOpsGo] at h
      injection h with h2
      have ha : a' = a := by
        have := congrArg (fun t => t.1) h2
        exact this.symm
      subst ha
      refine ⟨rfl, rfl, rfl, ?_, ?_⟩
      · intro p hp
        simp [emitCopies, hp]
      · intro hp
        simp [emitCopies, hp]
  | cons op rest ih =>
      intro a cs a' cs' h
      cases hstep : stepOp regions idx a op with
      | error e =>
          rw [runOpsGo_cons_error hstep] at h
          exact absurd h (by simp)
      | ok p =>
          obtain ⟨a1, nc⟩ := p
          rw [runOpsGo_cons_ok hstep] at h
          obtain ⟨hrw1, hus1, hk1, hsome1, hnone1⟩ := stepOp_state hstep
          obtain ⟨hrw2, hus2, hk2, hsome2, hnone2⟩ := ih a1 (cs ++ nc) a' cs' h
          refine ⟨by rw [hrw2, hrw1], by rw [hus2, hus1], by rw [hk2, hk1],
            ?_, ?_⟩
          · intro p hp
            obtain ⟨hp1, hc1⟩ := hsome1 p hp
            obtain ⟨hp2, hc2⟩ := hsome2 _ hp1
            refine ⟨?_, by rw [hc2, hc1]⟩
            rw [hp2, emitCopies_cons regions idx op rest, List.append_assoc]
          · intro hp
            obtain ⟨hp1, hc1⟩ := hnone1 hp
            obtain ⟨hp2, hc2⟩ := hnone2 hp1
            refine ⟨hp2, ?_⟩
            rw [hc2, hc1, emitCopies_cons regions idx op rest, List.append_assoc]

theorem placeOne_fields (l : SCLayouter) (sh : RegionShape) :
    (placeOne l sh).regions = l.regions ++ [regionStart l.columns sh.columns] ∧
    (placeOne l sh).columns = advanceColumns l.columns sh.columns
      (regionStart l.columns sh.columns + sh.row_count) ∧
    (placeOne l sh).constants = l.constants ∧
    (placeOne l sh).tableColumns = l.tableColumns :=
  ⟨rfl, rfl, rfl, rfl⟩

theorem placeBatch_constants {F : Type} :
    ∀ (asms : List (List (RegionOp F))) (l : SCLayouter),
      (placeBatch l asms).1.constants = l.constants ∧
      (placeBatch l asms).1.tableColumns = l.tableColumns ∧
      (placeBatch l asms).1.regions.length = l.regions.length + asms.length := by
  intro asms
  induction asms with
  | nil => intro l; exact ⟨rfl, rfl, by simp [placeBatch]⟩
  | cons ops rest ih =>
      intro l
      obtain ⟨h1, h2, h3⟩ := ih (placeOne l (probeShape ops))
      refine ⟨h1, h2, ?_⟩
      show (placeBatch (placeOne l (probeShape ops)) rest).1.regions.length = _
      rw [h3]
      simp [placeOne, List.length_append]
      omega

theorem placeBatch_regions_prefix {F : Type} :
    ∀ (asms : List (List (RegionOp F))) (l : SCLayouter),
      ∃ ext, (placeBatch l asms).1.regions = l.regions ++ ext := by
  intro asms
  induction asms with
  | nil => intro l; exact ⟨[], by simp [placeBatch]⟩
  | cons ops rest ih =>
      intro l
      obtain ⟨ext, hext⟩ := ih (placeOne l (probeShape ops))
      refine ⟨regionStart l.columns (probeShape ops).columns :: ext, ?_⟩
      show (placeBatch (placeOne l (probeShape ops)) rest).1.regions = _
      rw [hext]
      simp [placeOne]

theorem placeBatch_cc {F : Type} (ccR : RegionColumn) :
    ∀ (asms : List (List (RegionOp F))) (l : SCLayouter),
      (∀ ops ∈ asms, ccR ∉ (probeShape ops).columns) →
      lookupD (placeBatch l asms).1.columns ccR = lookupD l.columns ccR := by
  intro asms
  induction asms with
  | nil => intro l _; rfl
  | cons ops rest ih =>
      intro l hsh
      show lookupD (placeBatch (placeOne l (probeShape ops)) rest).1.columns ccR = _
      rw [ih (placeOne l (probeShape ops))
        (fun o ho => hsh o (List.mem_cons_of_mem _ ho))]
      show lookupD (advanceColumns l.columns (probeShape ops).columns _) ccR = _
      rw [lookupD_advanceColumns]
      simp [hsh ops (List.mem_cons_self _ _)]

theorem regionStart_congr (ccR : RegionColumn) (m m2 : ColMap) :
    ∀ (cols : List RegionColumn), ccR ∉ cols →
      (∀ c, c ≠ ccR → lookupD m c = lookupD m2 c) →
      regionStart m cols = regionStart m2 cols := by
  have haux : ∀ (cols : List RegionColumn), ccR ∉ cols →
      (∀ c, c ≠ ccR → lookupD m c = lookupD m2 c) →
      ∀ (acc : Nat),
        cols.foldl (fun acc c => max acc (lookupD m c)) acc =
          cols.foldl (fun acc c => max acc (lookupD m2 c)) acc := by
    intro cols
    induction cols with
    | nil => intro _ _ acc; rfl
    | cons d ds ih =>
        intro hcc hEq acc
        have hd : d ≠ ccR := fun h => hcc (h ▸ List.mem_cons_self d ds)
        show List.foldl _ (max acc (lookupD m d)) ds = _
        rw [hEq d hd]
        exact ih (fun h => hcc (List.mem_cons_of_mem _ h)) hEq _
  intro cols hcc hEq
  exact haux cols hcc hEq 0

theorem advanceColumns_mEq (ccR : RegionColumn) (m m2 : ColMap)
    (cols : List RegionColumn) (v : Nat)
    (hEq : ∀ c, c ≠ ccR → lookupD m c = lookupD m2 c) :
    ∀ c, c ≠ ccR → lookupD (advanceColumns m cols v) c =
      lookupD (advanceColumns m2 cols v) c := by
  intro c hc
  rw [lookupD_advanceColumns, lookupD_advanceColumns]
  by_cases hmem : c ∈ cols
  · simp [hmem]
  · simp [hmem, hEq c hc]

theorem placeBatch_mEq {F : Type} (ccR : RegionColumn) :
    ∀ (asms : List (List (RegionOp F))) (l l2 : SCLayouter),
      l.regions = l2.regions →
      (∀ c, c ≠ ccR → lookupD l.columns c = lookupD l2.columns c) →
      (∀ ops ∈ asms, ccR ∉ (probeShape ops).columns) →
      (placeBatch l asms).1.regions = (placeBatch l2 asms).1.regions ∧
      (placeBatch l asms).2 = (placeBatch l2 asms).2 := by
  intro asms
  induction asms with
  | nil =>
      intro l l2 hreg hEq _
      exact ⟨hreg, rfl⟩
  | cons ops rest ih =>
      intro l l2 hreg hEq hsh
      have hcc : ccR ∉ (probeShape ops).columns := hsh ops (List.mem_cons_self _ _)
      have hstart : regionStart l.columns (probeShape ops).columns =
          regionStart l2.columns (probeShape ops).columns :=
        regionStart_congr ccR l.columns l2.columns _ hcc hEq
      have hreg1 : (placeOne l (probeShape ops)).regions =
          (placeOne l2 (probeShape ops)).regions := by
        simp [placeOne, hreg, hstart]
      have hEq1 : ∀ c, c ≠ ccR →
          lookupD (placeOne l (probeShape ops)).columns c =
            lookupD (placeOne l2 (probeShape ops)).columns c := by
        intro c hc
        show lookupD (advanceColumns l.columns _ _) c =
          lookupD (advanceColumns l2.columns _ _) c
        rw [hstart]
        exact advanceColumns_mEq ccR l.columns l2.columns _ _ hEq c hc
      obtain ⟨h1, h2⟩ := ih (placeOne l (probeShape ops))
        (placeOne l2 (probeShape ops)) hreg1 hEq1
        (fun o ho => hsh o (List.mem_cons_of_mem _ ho))
      constructor
      · exact h1
      · show nextRange l (probeShape ops) :: (placeBatch _ rest).2 =
          nextRange l2 (probeShape ops) :: (placeBatch _ rest).2
        rw [h2]
        unfold nextRange
        rw [hstart]

theorem assignConstantsStep_perm {F : Type} {l l' : SCLayouter}
    {a a' : Assembly F} {cc : Column} {ctl : List Column}
    {consts : List (F × Cell)} {P : List (CopyCell × CopyCell)}
    (hcc : l.constants = cc :: ctl) (hperm : a.permutation = some P)
    (hrw : a.rw_rows.start = 0)
    (hok : assignConstantsStep l a consts = .ok (l', a')) :
    a'.permutation = some (P ++ constCopies l.regions cc
      (lookupD l.columns (.column cc)) consts) ∧
    a'.rw_rows = a.rw_rows ∧
    l'.regions = l.regions ∧ l'.constants = l.constants ∧
    l'.tableColumns = l.tableColumns ∧
    l'.columns = insertCol l.columns (.column cc)
      (lookupD l.columns (.column cc) + consts.length) := by
  rw [assignConstantsStep, hcc] at hok
  simp only at hok
  cases hg : goConsts l.regions cc a (lookupD l.columns (.column cc)) consts with
  | error e =>
      rw [hg] at hok
      simp at hok
  | ok p =>
      obtain ⟨a2, rowN⟩ := p
      rw [hg] at hok
      simp only at hok
      injection hok with hok2
      injection hok2 with hl2 ha2
      subst ha2
      obtain ⟨hlen, hpermF, hrwF, _, _⟩ :=
        goConsts_ok l.regions cc consts a a2 _ rowN P hperm hrw hg
      subst hlen
      rw [← hl2]
      exact ⟨hpermF, hrwF, rfl, hcc.symm, rfl, rfl⟩

theorem runRegionsSeq_cons_ok {F : Type} {l l2 : SCLayouter}
    {a a2 : Assembly F} {ops : List (RegionOp F)} {rest : List (List (RegionOp F))}
    (h : assignRegion l a ops = (l2, a2, .ok ())) :
    runRegionsSeq l a (ops :: rest) = runRegionsSeq l2 a2 rest := by
  simp [runRegionsSeq, h]

theorem runRegionsSeq_cons_err {F : Type} {l l2 : SCLayouter}
    {a a2 : Assembly F} {ops : List (RegionOp F)} {rest : List (List (RegionOp F))}
    {e : Err} (h : assignRegion l a ops = (l2, a2, .error e)) :
    runRegionsSeq l a (ops :: rest) = (l2, a2, .error e) := by
  simp [runRegionsSeq, h]

theorem assignRegion_ok_spec {F : Type} {l l2 : SCLayouter} {a a2 : Assembly F}
    {ops : List (RegionOp F)} {cc : Column} {ctl : List Column}
    {P : List (CopyCell × CopyCell)}
    (hcc : l.constants = cc :: ctl) (hperm : a.permutation = some P)
    (hrw : a.rw_rows.start = 0)
    (hshape : RegionColumn.column cc ∉ (probeShape ops).columns)
    (hok : assignRegion l a ops = (l2, a2, .ok ())) :
    l2.regions = (placeOne l (probeShape ops)).regions ∧
    l2.constants = l.constants ∧
    l2.tableColumns = l.tableColumns ∧
    a2.rw_rows = a.rw_rows ∧
    a2.permutation = some ((P ++
      emitCopies (placeOne l (probeShape ops)).regions l.regions.length ops) ++
      constCopies (placeOne l (probeShape ops)).regions cc
        (lookupD l.columns (.column cc)) (emitConsts l.regions.length ops)) ∧
    (∀ c, c ≠ RegionColumn.column cc →
      lookupD l2.columns c = lookupD (placeOne l (probeShape ops)).columns c) ∧
    lookupD l2.columns (.column cc) =
      lookupD l.columns (.column cc) +
        (emitConsts (F := F) l.regions.length ops).length := by
  cases hrun : runOpsGo (placeOne l (probeShape ops)).regions l.regions.length
      a [] ops with
  | mk pr res =>
      obtain ⟨aM, cs⟩ := pr
      cases res with
      | error e =>
          rw [assignRegion_run_error hrun] at hok
          injection hok with h1 h2
          injection h2 with h3 h4
          exact absurd h4 (by simp)
      | ok u =>
          cases u
          have hcs : cs = emitConsts l.regions.length ops := by
            have hh := (runOpsGo_consts (placeOne l (probeShape ops)).regions
              l.regions.length ops a []).1
            rw [hrun] at hh
            simpa using hh rfl
          rw [assignRegion_run_ok hrun] at hok
          cases hcons : assignConstantsStep (placeOne l (probeShape ops)) aM cs with
          | error e =>
              rw [hcons] at hok
              simp at hok
          | ok p2 =>
              obtain ⟨l2', a2'⟩ := p2
              rw [hcons] at hok
              simp only at hok
              injection hok with h1 h2
              injection h2 with h3 h4
              subst h1
              subst h3
              obtain ⟨hrwM, _, _, hsomeM, _⟩ :=
                runOpsGo_state _ _ ops a [] aM cs hrun
              obtain ⟨hpermM, _⟩ := hsomeM P hperm
              have hccl1 : (placeOne l (probeShape ops)).constants = cc :: ctl := hcc
              have hrwM0 : aM.rw_rows.start = 0 := by rw [hrwM]; exact hrw
              obtain ⟨hperm2, hrw2, hreg2, hconst2, htc2, hcols2⟩ :=
                assignConstantsStep_perm hccl1 hpermM hrwM0 hcons
              have hcur : lookupD (placeOne l (probeShape ops)).columns
                  (.column cc) = lookupD l.columns (.column cc) := by
                show lookupD (advanceColumns l.columns _ _) _ = _
                rw [lookupD_advanceColumns]
                simp [hshape]
              refine ⟨hreg2, ?_, ?_, by rw [hrw2, hrwM], ?_, ?_, ?_⟩
              · rw [hconst2]
                rfl
              · rw [htc2]
                rfl
              · rw [hperm2, hcs, hcur]
              · intro c hc
                rw [hcols2, lookupD_insertCol_ne _ _ _ _ (fun h => hc h.symm)]
              · rw [hcols2, lookupD_insertCol_self, hcur, hcs]

theorem runRegionsSeq_spec {F : Type} (cc : Column) (ctl : List Column) :
    ∀ (asms : List (List (RegionOp F))) (l l' : SCLayouter) (a a' : Assembly F)
      (P : List (CopyCell × CopyCell)),
      l.constants = cc :: ctl →
      (∀ ops ∈ asms, RegionColumn.column cc ∉ (probeShape ops).columns) →
      refsOkB l.regions.length asms = true →
      a.permutation = some P →
      a.rw_rows.start = 0 →
      runRegionsSeq l a asms = (l', a', .ok ()) →
      l'.regions = (placeBatch l asms).1.regions ∧
      a'.permutation = some (P ++
        seqCopies (placeBatch l asms).1.regions cc l.regions.length
          (lookupD l.columns (.column cc)) asms) := by
  intro asms
  induction asms with
  | nil =>
      intro l l' a a' P hcc hsh href hperm hrw hok
      simp only [runRegionsSeq] at hok
      injection hok with h1 h2
      injection h2 with h3 h4
      subst h1
      subst h3
      exact ⟨rfl, by simp [seqCopies, placeBatch, hperm]⟩
  | cons ops rest ih =>
      intro l l' a a' P hcc hsh href hperm hrw hok
      cases hstep : assignRegion l a ops with
      | mk l2 p =>
          obtain ⟨a2, res⟩ := p
          cases res with
          | error e =>
              rw [runRegionsSeq_cons_err hstep] at hok
              injection hok with h1 h2
              injection h2 with h3 h4
              exact absurd h4 (by simp)
          | ok u =>
              cases u
              rw [runRegionsSeq_cons_ok hstep] at hok
              have hshape0 : RegionColumn.column cc ∉ (probeShape ops).columns :=
                hsh ops (List.mem_cons_self _ _)
              obtain ⟨hreg2, hconst2, htc2, hrw2, hperm2, hmEq2, hcur2⟩ :=
                assignRegion_ok_spec hcc hperm hrw hshape0 hstep
              have hrefsplit := href
              simp only [refsOkB, Bool.and_eq_true] at hrefsplit
              have hlen2 : l2.regions.length = l.regions.length + 1 := by
                rw [hreg2]
                simp [placeOne]
              have href2 : refsOkB l2.regions.length rest = true := by
                rw [hlen2]
                exact hrefsplit.2
              have hcc2 : l2.constants = cc :: ctl := by rw [hconst2]; exact hcc
              have hrw2z : a2.rw_rows.start = 0 := by rw [hrw2]; exact hrw
              obtain ⟨hregF, hpermF⟩ := ih l2 l' a2 a' _ hcc2
                (fun o ho => hsh o (List.mem_cons_of_mem _ ho)) href2
                hperm2 hrw2z hok
              have hmq := placeBatch_mEq (RegionColumn.column cc) rest l2
                (placeOne l (probeShape ops))
                (by rw [hreg2]) hmEq2
                (fun o ho => hsh o (List.mem_cons_of_mem _ ho))
              have hRF : (placeBatch l (ops :: rest)).1.regions =
                  (placeBatch (placeOne l (probeShape ops)) rest).1.regions := rfl
              constructor
              · rw [hregF, hmq.1, hRF]
              · rw [hpermF, hmq.1, hcur2, hlen2]
                obtain ⟨ext, hext⟩ :=
                  placeBatch_regions_prefix rest (placeOne l (probeShape ops))
                have hlen1 : (placeOne l (probeShape ops)).regions.length =
                    l.regions.length + 1 := by
                  simp [placeOne]
                have hemit : emitCopies
                    (placeBatch (placeOne l (probeShape ops)) rest).1.regions
                    l.regions.length ops =
                    emitCopies (placeOne l (probeShape ops)).regions
                      l.regions.length ops := by
                  rw [hext]
                  exact emitCopies_extend _ ext _ ops
                    (by rw [hlen1]; exact hrefsplit.1)
                have hconstq : constCopies
                    (placeBatch (placeOne l (probeShape ops)) rest).1.regions cc
                    (lookupD l.columns (.column cc))
                    (emitConsts l.regions.length ops) =
                    constCopies (placeOne l (probeShape ops)).regions cc
                      (lookupD l.columns (.column cc))
                      (emitConsts l.regions.length ops) := by
                  rw [hext]
                  refine constCopies_extend _ ext cc _ _ ?_
                  intro p hp
                  rw [emitConsts_region ops l.regions.length p hp, hlen1]
                  omega
                show _ = some (P ++ seqCopies
                  (placeBatch (placeOne l (probeShape ops)) rest).1.regions cc
                  l.regions.length (lookupD l.columns (.column cc)) (ops :: rest))
                simp only [seqCopies]
                rw [hemit, hconstq]
                simp [List.append_assoc]

theorem runSubs_flat {F : Type} (regions : List Nat) :
    ∀ (asms : List (List (RegionOp F))) (subs : List (Assembly F)) (base : Nat),
      subs.length = asms.length →
      (∀ s ∈ subs, s.permutation = none) →
      (∀ r ∈ runSubs regions base (asms.zip subs), r.2 = .ok ()) →
      (∀ s ∈ subs, s.copies = []) →
      ((runSubs regions base (asms.zip subs)).map (fun r => r.1.1)).flatMap
        (fun s => s.copies) = parEmits regions base asms ∧
      (runSubs regions base (asms.zip subs)).flatMap (fun r => r.1.2) =
        parConsts base asms := by
  intro asms
  induction asms with
  | nil =>
      intro subs base hlen _ _ _
      have hs : subs = [] := List.length_eq_zero.mp (by rw [hlen]; rfl)
      subst hs
      exact ⟨rfl, rfl⟩
  | cons ops rest ih =>
      intro subs base hlen hnone hok hcop
      cases subs with
      | nil => simp at hlen
      | cons sub subs' =>
          have hzip : (ops :: rest).zip (sub :: subs') =
              (ops, sub) :: rest.zip subs' := rfl
          have hmem0 : runOpsGo regions base sub [] ops ∈
              runSubs regions base ((ops :: rest).zip (sub :: subs')) := by
            rw [hzip]
            exact List.mem_cons_self _ _
          cases hrun : runOpsGo regions base sub [] ops with
          | mk pr res =>
              obtain ⟨s1, cs1⟩ := pr
              have hres : res = .ok () := by
                have hh := hok _ hmem0
                rw [hrun] at hh
                exact hh
              subst hres
              have hnone0 : sub.permutation = none :=
                hnone sub (List.mem_cons_self _ _)
              have hcop0 : sub.copies = [] := hcop sub (List.mem_cons_self _ _)
              obtain ⟨_, _, _, _, hnn⟩ :=
                runOpsGo_state regions base ops sub [] s1 cs1 hrun
              obtain ⟨_, hcops1⟩ := hnn hnone0
              have hcs1 : cs1 = emitConsts base ops := by
                have hh := (runOpsGo_consts regions base ops sub []).1
                rw [hrun] at hh
                simpa using hh rfl
              have htailok : ∀ r ∈ runSubs regions (base + 1) (rest.zip subs'),
                  r.2 = .ok () := by
                intro r hr
                refine hok r ?_
                rw [hzip]
                show r ∈ runOpsGo regions base sub [] ops ::
                  runSubs regions (base + 1) (rest.zip subs')
                exact List.mem_cons_of_mem _ hr
              obtain ⟨ih1, ih2⟩ := ih subs' (base + 1)
                (by simpa using hlen)
                (fun s hs => hnone s (List.mem_cons_of_mem _ hs))
                htailok
                (fun s hs => hcop s (List.mem_cons_of_mem _ hs))
              constructor
              · rw [hzip]
                show ((runOpsGo regions base sub [] ops ::
                    runSubs regions (base + 1) (rest.zip subs')).map
                    (fun r => r.1.1)).flatMap (fun s => s.copies) = _
                rw [hrun]
                simp only [List.map_cons, List.flatMap_cons]
                rw [ih1, hcops1, hcop0]
                simp [parEmits]
              · rw [hzip]
                show (runOpsGo regions base sub [] ops ::
                    runSubs regions (base + 1) (rest.zip subs')).flatMap
                    (fun r => r.1.2) = _
                rw [hrun]
                simp only [List.flatMap_cons]
                rw [ih2, hcs1]
                simp [parConsts]

theorem assignRegionsM_spec {F : Type} (cc : Column) (ctl : List Column)
    (asms : List (List (RegionOp F))) (l l' : SCLayouter) (a a' : Assembly F)
    (P : List (CopyCell × CopyCell))
    (hcc : l.constants = cc :: ctl)
    (hsh : ∀ ops ∈ asms, RegionColumn.column cc ∉ (probeShape ops).columns)
    (hperm : a.permutation = some P)
    (hrw : a.rw_rows.start = 0)
    (hok : assignRegionsM l a asms = (l', a', .ok ())) :
    a'.permutation = some ((P ++
      parEmits (placeBatch l asms).1.regions l.regions.length asms) ++
      constCopies (placeBatch l asms).1.regions cc
        (lookupD l.columns (.column cc)) (parConsts l.regions.length asms)) := by
  cases hfork : a.fork (placeBatch (F := F) l asms).2 with
  | error e =>
      simp only [assignRegionsM, hfork] at hok
      injection hok with h1 h2
      injection h2 with h3 h4
      exact absurd h4 (by simp)
  | ok subs =>
      have hsubs := fork_ok_subs hfork
      have hsubnone : ∀ s ∈ subs, s.permutation = none := by
        intro s hs
        rw [hsubs] at hs
        obtain ⟨r, _, hr⟩ := List.mem_map.mp hs
        rw [← hr]
        rfl
      have hsubcop : ∀ s ∈ subs, s.copies = [] := by
        intro s hs
        rw [hsubs] at hs
        obtain ⟨r, _, hr⟩ := List.mem_map.mp hs
        rw [← hr]
        rfl
      have hslen : subs.length = asms.length := by
        rw [hsubs, List.length_map, placeBatch_ranges_length]
      have hmerge := merge_eq hperm
        ((runSubs (placeBatch l asms).1.regions l.regions.length
          (asms.zip subs)).map (fun r => r.1.1))
      simp only [assignRegionsM, hfork, hmerge] at hok
      cases hcol : collectResults
          ((runSubs (placeBatch l asms).1.regions l.regions.length
            (asms.zip subs)).map (fun r => r.2)) with
      | error e =>
          rw [hcol] at hok
          simp at hok
      | ok u =>
          cases u
          rw [hcol] at hok
          simp only at hok
          have hallok : ∀ r ∈ runSubs (placeBatch l asms).1.regions
              l.regions.length (asms.zip subs), r.2 = .ok () := by
            have hh := (collectResults_ok_iff _).mp hcol
            intro r hr
            exact hh r.2 (List.mem_map_of_mem _ hr)
          obtain ⟨hflatC, hflatK⟩ := runSubs_flat (placeBatch l asms).1.regions
            asms subs l.regions.length hslen hsubnone hallok hsubcop
          set FL := ((runSubs (placeBatch l asms).1.regions l.regions.length
            (asms.zip subs)).map (fun r => r.1.1)).flatMap (fun s => s.copies)
            with hFLdef
          set KL := (runSubs (placeBatch l asms).1.regions l.regions.length
            (asms.zip subs)).flatMap (fun r => r.1.2) with hKLdef
          cases hcons : assignConstantsStep (placeBatch l asms).1
              (mergedAssembly a (P ++ FL)) KL with
          | error e =>
              rw [hcons] at hok
              simp at hok
          | ok p2 =>
              obtain ⟨l2, a2⟩ := p2
              rw [hcons] at hok
              simp only at hok
              injection hok with h1 h2
              injection h2 with h3 h4
              subst h1
              subst h3
              have hccl1 : (placeBatch (F := F) l asms).1.constants = cc :: ctl := by
                rw [(placeBatch_constants asms l).1]
                exact hcc
              have hpermM : (mergedAssembly a (P ++ FL)).permutation =
                  some (P ++ FL) := rfl
              have hrwM : (mergedAssembly a (P ++ FL)).rw_rows.start = 0 := hrw
              obtain ⟨hperm2, _, _, _, _, _⟩ :=
                assignConstantsStep_perm hccl1 hpermM hrwM hcons
              rw [hperm2, hflatC, hflatK, placeBatch_cc (RegionColumn.column cc)
                asms l hsh]

theorem seqCopies_perm_par {F : Type} (regions : List Nat) (cc : Column) :
    ∀ (asms : List (List (RegionOp F))) (base cursor : Nat),
      (seqCopies regions cc base cursor asms).Perm
        (parEmits regions base asms ++
          constCopies regions cc cursor (parConsts base asms)) := by
  intro asms
  induction asms with
  | nil =>
      intro base cursor
      simp [seqCopies, parEmits, parConsts, constCopies]
  | cons ops rest ih =>
      intro base cursor
      simp only [seqCopies, parEmits, parConsts]
      rw [constCopies_append]
      set e := emitCopies regions base ops with he
      set cB := constCopies regions cc cursor (emitConsts base ops) with hcB
      set pR := parEmits regions (base + 1) rest with hpR
      set cR := constCopies regions cc
        (cursor + (emitConsts (F := F) base ops).length)
        (parConsts (base + 1) rest) with hcR
      have h1 := ih (base + 1) (cursor + (emitConsts (F := F) base ops).length)
      have hA : (e ++ cB ++ seqCopies regions cc (base + 1)
          (cursor + (emitConsts (F := F) base ops).length) rest).Perm
          (e ++ (cB ++ (pR ++ cR))) := by
        rw [List.append_assoc]
        exact List.Perm.append_left _ (List.Perm.append_left _ h1)
      have hB : (cB ++ (pR ++ cR)).Perm (pR ++ (cB ++ cR)) := by
        have h2 : ((cB ++ pR) ++ cR).Perm ((pR ++ cB) ++ cR) :=
          List.Perm.append_right _ List.perm_append_comm
        rw [List.append_assoc, List.append_assoc] at h2
        exact h2
      have hC : (e ++ pR) ++ (cB ++ cR) = e ++ (pR ++ (cB ++ cR)) := by
        simp [List.append_assoc]
      rw [hC]
      exact hA.trans (List.Perm.append_left _ hB)

/-- C5 (amended): when a constants column is configured and untouched by
the batch's shapes, equality constraints reference only already-created
regions, the parent has a permutation builder, and both the parallel
(fork/merge) and the sequential (`assign_region`) drivers run the batch to
completion, then (a) the parallel driver's permutation builder receives the
buffered constraints replayed in sub-context (= original region) order
followed by the batch's consolidation constraints, and (b) the resulting
constraint list is a permutation of (so identical as a set to) the
sequential driver's. -/

theorem C5_parallel_sequential_sets {F : Type} (cc : Column) (ctl : List Column)
    (l : SCLayouter) (a : Assembly F) (asms : List (List (RegionOp F)))
    (P : List (CopyCell × CopyCell))
    (hcc : l.constants = cc :: ctl)
    (hsh : ∀ ops ∈ asms, RegionColumn.column cc ∉ (probeShape ops).columns)
    (href : refsOkB l.regions.length asms = true)
    (hperm : a.permutation = some P)
    (hrw : a.rw_rows.start = 0)
    (hpar : (assignRegionsM l a asms).2.2 = .ok ())
    (hseq : (runRegionsSeq l a asms).2.2 = .ok ()) :
    (assignRegionsM l a asms).2.1.permutation = some ((P ++
      parEmits (placeBatch l asms).1.regions l.regions.length asms) ++
      constCopies (placeBatch l asms).1.regions cc
        (lookupD l.columns (.column cc)) (parConsts l.regions.length asms)) ∧
    ∃ Ps, (runRegionsSeq l a asms).2.1.permutation = some Ps ∧
      ((P ++ parEmits (placeBatch l asms).1.regions l.regions.length asms) ++
        constCopies (placeBatch l asms).1.regions cc
          (lookupD l.columns (.column cc))
          (parConsts l.regions.length asms)).Perm Ps := by
  cases hP : assignRegionsM l a asms with
  | mk lp q =>
      obtain ⟨ap, resp⟩ := q
      rw [hP] at hpar
      simp only at hpar
      cases resp with
      | error e => simp at hpar
      | ok u =>
          cases u
          cases hS : runRegionsSeq l a asms with
          | mk ls q2 =>
              obtain ⟨as2, ress⟩ := q2
              rw [hS] at hseq
              simp only at hseq
              cases ress with
              | error e => simp at hseq
              | ok u2 =>
                  cases u2
                  have hparspec := assignRegionsM_spec cc ctl asms l lp a ap P
                    hcc hsh hperm hrw hP
                  obtain ⟨hregS, hseqspec⟩ := runRegionsSeq_spec cc ctl asms
                    l ls a as2 P hcc hsh href hperm hrw hS
                  refine ⟨hparspec, ⟨_, hseqspec, ?_⟩⟩
                  have hp := seqCopies_perm_par
                    (placeBatch (F := F) l asms).1.regions cc asms
                    l.regions.length (lookupD l.columns (.column cc))
                  rw [List.append_assoc]
                  exact List.Perm.append_left P hp.symm

/-- Counterexample to C5 as stated: a batch of two regions on disjoint
advice columns is placed greedily at the same rows (both regions start at
row 0), so `fork` receives two overlapping row ranges and rejects the
whole batch with `Error::Synthesis` before any routine runs — while the
sequential path materializes both regions and registers both equality
constraints.  The parallel path therefore does not produce the sequential
constraint set (it produces none). -/

theorem C5_parallel_rejects_disjoint_batch :
    (runRegionsSeq layouterCE assemblyCE disjointBatch).2.2 = .ok () ∧
    (runRegionsSeq layouterCE assemblyCE disjointBatch).2.1.permutation
      = some [(⟨⟨.advice, 0⟩, 0⟩, ⟨⟨.advice, 0⟩, 0⟩),
          (⟨⟨.advice, 1⟩, 0⟩, ⟨⟨.advice, 1⟩, 0⟩)] ∧
    (assignRegionsM layouterCE assemblyCE disjointBatch).2.2
      = .error .Synthesis :=
  ⟨rfl, rfl, rfl⟩

theorem C5_parallel_sequential_sets_witness :
    (assignRegionsM layouterW assemblyW sharedBatch).2.1.permutation
      = some (([] ++ parEmits (placeBatch layouterW sharedBatch).1.regions
          layouterW.regions.length sharedBatch) ++
        constCopies (placeBatch layouterW sharedBatch).1.regions ⟨.fixed, 0⟩
          (lookupD layouterW.columns (.column ⟨.fixed, 0⟩))
          (parConsts layouterW.regions.length sharedBatch)) ∧
    ∃ Ps, (runRegionsSeq layouterW assemblyW sharedBatch).2.1.permutation
        = some Ps ∧
      (([] ++ parEmits (placeBatch layouterW sharedBatch).1.regions
          layouterW.regions.length sharedBatch) ++
        constCopies (placeBatch layouterW sharedBatch).1.regions ⟨.fixed, 0⟩
          (lookupD layouterW.columns (.column ⟨.fixed, 0⟩))
          (parConsts layouterW.regions.length sharedBatch)).Perm Ps :=
  C5_parallel_sequential_sets ⟨.fixed, 0⟩ [] layouterW assemblyW sharedBatch []
    rfl (by decide) rfl rfl rfl rfl rfl

end Halo2

